import Mathlib

set_option maxRecDepth 20000

/-!
Verification development for the Impala-to-Trino SQL text converter
(`impala_to_trino.py`).  The program is embedded shallowly: SQL text is a
`List Char`, the regex patterns of the rule table are modelled by the
deterministic scanners below (each pattern in the source is of one of four
fixed shapes, for which Python's backtracking collapses to the deterministic
greedy behaviour implemented here), and `re.findall` counting / `re.sub`
replacement are modelled by fuelled scans over the text.  Python exceptions
are modelled with `Except String`.  Character classes (`\s`, `\w`, `lower`)
are modelled on their ASCII fragment.
-/

/-- Lower-case an ASCII letter, the ASCII fragment of Python `lower()` and of
case-insensitive (`re.IGNORECASE`) matching. -/
def lc (c : Char) : Char :=
  if 'A' ≤ c ∧ c ≤ 'Z' then Char.ofNat (c.toNat + 32) else c

/-- ASCII whitespace: the fragment of Python's regex `\s` and `str.split()` /
`str.strip()` whitespace relevant here. -/
def isWs (c : Char) : Bool :=
  c = ' ' || c = '\t' || c = '\n' || c = '\r' || c = '\x0b' || c = '\x0c'

/-- Python regex word character `[A-Za-z0-9_]` (ASCII fragment), used for the
`\b` word boundaries of the post-processing patterns. -/
def isWord (c : Char) : Bool :=
  ('a' ≤ c && c ≤ 'z') || ('A' ≤ c && c ≤ 'Z') || ('0' ≤ c && c ≤ '9') || c = '_'

/-- ASCII digit, for the `(\d+)` group of the interval rewrite. -/
def isDigitCh (c : Char) : Bool := '0' ≤ c && c ≤ '9'

/-- The characters of a string literal. -/
def str (s : String) : List Char := s.data

/-- The four regex shapes occurring in the rule table:
`name\s*\(([^,]+),\s*([^)]+)\)`, `name\s*\(([^)]+)\)`,
`name\s*\(([^)]*)\)` and `name\s*\(\)`. -/
inductive Shape
  | two | one | opt | zero
deriving DecidableEq

/-- Case-insensitively consume the literal `nm` from the front of `s`,
returning the rest. -/
def ciDrop : List Char → List Char → Option (List Char)
  | [], s => some s
  | _ :: _, [] => none
  | n :: ns, c :: cs => if lc c = lc n then ciDrop ns cs else none

/-- Consume `\s*\(`: a maximal whitespace run, then a literal parenthesis
(the run is forced, since `(` is not whitespace). -/
def wsParen (s : List Char) : Option (List Char) :=
  match s.dropWhile (fun c => isWs c) with
  | '(' :: r => some r
  | _ => none

/-- Consume `([^,]+),` : the greedy non-comma capture followed by the comma.
No backtracking is possible: a shorter capture is followed by a non-comma. -/
def arg1 (s : List Char) : Option (List Char × List Char) :=
  match s.takeWhile (fun c => c != ','), s.dropWhile (fun c => c != ',') with
  | [], _ => none
  | c :: g1, ',' :: r => some (c :: g1, r)
  | _, _ => none

/-- Consume `\s*([^)]+)\)` with the single backtracking step Python performs:
the greedy `\s*` gives one whitespace character back to `[^)]+` when the whole
run between the comma and the first `)` is whitespace. -/
def arg2 (s : List Char) : Option (List Char × List Char) :=
  match s.takeWhile (fun c => c != ')'), s.dropWhile (fun c => c != ')') with
  | [], _ => none
  | c :: run, ')' :: r =>
    match (c :: run).dropWhile (fun d => isWs d) with
    | [] =>
      match (c :: run).reverse with
      | x :: _ => some ([x], r)
      | [] => none
    | g2 => some (g2, r)
  | _, _ => none

/-- Consume `([^)]+)\)` (`allowEmpty = false`) or `([^)]*)\)`
(`allowEmpty = true`). -/
def argP (allowEmpty : Bool) (s : List Char) : Option (List Char × List Char) :=
  match s.dropWhile (fun c => c != ')') with
  | ')' :: r =>
    if (s.takeWhile (fun c => c != ')')).isEmpty && !allowEmpty then none
    else some (s.takeWhile (fun c => c != ')'), r)
  | _ => none

/-- Attempt to match the pattern `nm`‹shape› at the very start of `s`,
returning the captured groups and the text after the match. -/
def matchTwo (nm : List Char) (s : List Char) : Option (List (List Char) × List Char) :=
  match ciDrop nm s with
  | none => none
  | some s1 =>
    match wsParen s1 with
    | none => none
    | some s2 =>
      match arg1 s2 with
      | none => none
      | some (g1, s3) =>
        match arg2 s3 with
        | none => none
        | some (g2, s4) => some ([g1, g2], s4)

def matchOneOpt (allowEmpty : Bool) (nm : List Char) (s : List Char) :
    Option (List (List Char) × List Char) :=
  match ciDrop nm s with
  | none => none
  | some s1 =>
    match wsParen s1 with
    | none => none
    | some s2 =>
      match argP allowEmpty s2 with
      | none => none
      | some (g, s3) => some ([g], s3)

def matchZero (nm : List Char) (s : List Char) : Option (List (List Char) × List Char) :=
  match ciDrop nm s with
  | none => none
  | some s1 =>
    match wsParen s1 with
    | none => none
    | some s2 =>
      match s2 with
      | ')' :: r => some ([], r)
      | _ => none

def matchAt (nm : List Char) (sh : Shape) (s : List Char) :
    Option (List (List Char) × List Char) :=
  match sh with
  | .two => matchTwo nm s
  | .one => matchOneOpt false nm s
  | .opt => matchOneOpt true nm s
  | .zero => matchZero nm s

/-- Leftmost match: Python's scan over successive start positions.  Returns
the text before the match, the captured groups, and the text after it. -/
def findSplit (nm : List Char) (sh : Shape) :
    List Char → Option (List Char × List (List Char) × List Char)
  | [] => none
  | c :: s' =>
    match matchAt nm sh (c :: s') with
    | some (gs, rest) => some ([], gs, rest)
    | none =>
      match findSplit nm sh s' with
      | none => none
      | some (pre, gs, rest) => some (c :: pre, gs, rest)

/-- Fuelled count of non-overlapping matches (`len(re.findall(...))`). -/
def cntF (nm : List Char) (sh : Shape) : Nat → List Char → Nat
  | 0, _ => 0
  | f + 1, s =>
    match findSplit nm sh s with
    | none => 0
    | some (_, _, rest) => 1 + cntF nm sh f rest

/-- Fuelled global replacement (`re.sub`); an exception in any single
replacement call aborts the whole substitution (`Except.error`). -/
def subF (nm : List Char) (sh : Shape)
    (repl : List (List Char) → Except String (List Char)) :
    Nat → List Char → Except String (List Char)
  | 0, s => .ok s
  | f + 1, s =>
    match findSplit nm sh s with
    | none => .ok s
    | some (pre, gs, rest) => do
      let o ← repl gs
      let t ← subF nm sh repl f rest
      .ok (pre ++ o ++ t)

/-- `len(re.findall(pattern, s, re.IGNORECASE))`. -/
def pyCount (nm : List Char) (sh : Shape) (s : List Char) : Nat :=
  cntF nm sh s.length s

/-- `re.sub(pattern, repl, s, flags=re.IGNORECASE)`. -/
def pySub (nm : List Char) (sh : Shape)
    (repl : List (List Char) → Except String (List Char)) (s : List Char) :
    Except String (List Char) :=
  subF nm sh repl s.length s

/-- Python `str.split()` on the ASCII whitespace fragment: whitespace-separated
words, empty words dropped.  `acc` is the current word, reversed. -/
def pySplitGo : List Char → List Char → List (List Char)
  | [], acc => if acc.isEmpty then [] else [acc.reverse]
  | c :: rest, acc =>
    if isWs c then
      if acc.isEmpty then pySplitGo rest [] else acc.reverse :: pySplitGo rest []
    else pySplitGo rest (c :: acc)

/-- Python `str.split()`. -/
def pySplit (s : List Char) : List (List Char) := pySplitGo s []

/-- Python `str.strip()` (ASCII whitespace fragment). -/
def pyStrip (s : List Char) : List Char :=
  ((s.dropWhile (fun c => isWs c)).reverse.dropWhile (fun c => isWs c)).reverse

/-- `_replace_date_add`: single-token second argument gives the day form with a
CAST; otherwise tokens 1 and 2 are read, so a split of length 0 or 2 raises
`IndexError` (`"list index out of range"`), and on a triple the middle token is
the amount and the last-read token the unit, with one trailing `s` stripped. -/
def _replace_date_add (g1 g2 : List Char) : Except String (List Char) :=
  match pySplit g2 with
  | [_] => .ok (str "date_add('day', " ++ g2 ++ str ", CAST(" ++ g1 ++ str " AS TIMESTAMP))")
  | [] => .error "list index out of range"
  | [_, _] => .error "list index out of range"
  | _ :: vp :: u :: _ =>
    let unit := if u.getLast? = some 's' then u.dropLast else u
    .ok (str "date_add('" ++ unit ++ str "', " ++ vp ++ str ", " ++ g1 ++ str ")")

/-- `_replace_date_part`: strip and lower-case the first capture, map the six
known quoted unit literals, strip any remaining quote characters, and build the
`extract` call. -/
def _replace_date_part (g1 g2 : List Char) : Except String (List Char) :=
  let part := (pyStrip g1).map lc
  let date := pyStrip g2
  let mapped :=
    if part = str "'year'" then str "year"
    else if part = str "'month'" then str "month"
    else if part = str "'day'" then str "day"
    else if part = str "'hour'" then str "hour"
    else if part = str "'minute'" then str "minute"
    else if part = str "'second'" then str "second"
    else part
  let cleaned := mapped.filter (fun c => c != '\'')
  .ok (str "extract(" ++ cleaned ++ str " FROM " ++ date ++ str ")")

/-- `_replace_date_sub`: like `_replace_date_add` but negating the amount and
without the CAST in the single-token form. -/
def _replace_date_sub (g1 g2 : List Char) : Except String (List Char) :=
  match pySplit g2 with
  | [_] => .ok (str "date_add('day', -" ++ g2 ++ str ", " ++ g1 ++ str ")")
  | [] => .error "list index out of range"
  | [_, _] => .error "list index out of range"
  | _ :: vp :: u :: _ =>
    let unit := if u.getLast? = some 's' then u.dropLast else u
    .ok (str "date_add('" ++ unit ++ str "', -" ++ vp ++ str ", " ++ g1 ++ str ")")

/-- A rule's rewrite strategy, with the argument arity of its pattern shape. -/
inductive RKind
  | two (f : List Char → List Char → Except String (List Char))
  | one (f : List Char → Except String (List Char))
  | opt (f : List Char → Except String (List Char))
  | zero (out : List Char)

/-- The pattern shape belonging to a rewrite strategy. -/
def RKind.shape : RKind → Shape
  | .two _ => .two
  | .one _ => .one
  | .opt _ => .opt
  | .zero _ => .zero

/-- Apply a rewrite strategy to the captured groups of one match. -/
def RKind.apply : RKind → List (List Char) → Except String (List Char)
  | .two f, [g1, g2] => f g1 g2
  | .one f, [g] => f g
  | .opt f, [g] => f g
  | .zero out, [] => .ok out
  | _, _ => .error "arity mismatch"

/-- One entry of the function mapping registry: the dictionary key (also the
literal function name of the pattern, matched case-insensitively) and the
rewrite strategy. -/
structure Rule where
  name : String
  kind : RKind

/-- The literal name part of a rule's pattern (`name\s*\(...`), lower-cased
(matching is case-insensitive, so only the letters matter). -/
def Rule.pat (r : Rule) : List Char := str r.name

/-- The `function_mappings` registry, in dictionary insertion order. -/
def function_mappings : List Rule := [
  ⟨"add_months", .two fun g1 g2 =>
    .ok (str "date_add('month', " ++ g2 ++ str ", CAST(" ++ g1 ++ str " AS TIMESTAMP))")⟩,
  ⟨"adddate", .two fun g1 g2 =>
    .ok (str "date_add('day', " ++ g2 ++ str ", " ++ g1 ++ str ")")⟩,
  ⟨"date_add", .two _replace_date_add⟩,
  ⟨"date_part", .two _replace_date_part⟩,
  ⟨"date_sub", .two _replace_date_sub⟩,
  ⟨"datediff", .two fun g1 g2 =>
    .ok (str "date_diff('day', " ++ g2 ++ str ", " ++ g1 ++ str ")")⟩,
  ⟨"dayofmonth", .one fun g => .ok (str "DAY(" ++ g ++ str ")")⟩,
  ⟨"dayofweek", .one fun g =>
    .ok (str "IF(day_of_week(" ++ g ++ str ")+1 > 7, 1, day_of_week(" ++ g ++ str ")+1)")⟩,
  ⟨"from_utc_timestamp", .two fun g1 g2 =>
    .ok (str "at_timezone(" ++ g1 ++ str ", " ++ g2 ++ str ")")⟩,
  ⟨"to_utc_timestamp", .two fun g1 _ =>
    .ok (str "at_timezone(" ++ g1 ++ str ", 'UTC')")⟩,
  ⟨"group_concat", .one fun g =>
    .ok (str "array_join(array_agg(" ++ g ++ str "), ',')")⟩,
  ⟨"ifnull", .two fun g1 g2 =>
    .ok (str "COALESCE(" ++ g1 ++ str ", " ++ g2 ++ str ")")⟩,
  ⟨"instr", .two fun g1 g2 =>
    .ok (str "strpos(" ++ g1 ++ str ", " ++ g2 ++ str ")")⟩,
  ⟨"int_months_between", .two fun g1 g2 =>
    .ok (str "date_diff('month', " ++ g2 ++ str ", " ++ g1 ++ str ")")⟩,
  ⟨"left", .two fun g1 g2 =>
    .ok (str "substring(" ++ g1 ++ str ", 1, " ++ g2 ++ str ")")⟩,
  ⟨"strleft", .two fun g1 g2 =>
    .ok (str "substring(" ++ g1 ++ str ", 1, " ++ g2 ++ str ")")⟩,
  ⟨"strright", .two fun g1 g2 =>
    .ok (str "substring(" ++ g1 ++ str ", -" ++ g2 ++ str ")")⟩,
  ⟨"right", .two fun g1 g2 =>
    .ok (str "substring(" ++ g1 ++ str ", -" ++ g2 ++ str ")")⟩,
  ⟨"to_date", .one fun g => .ok (str "date(" ++ g ++ str ")")⟩,
  ⟨"trunc", .two fun g1 g2 =>
    .ok (str "date_trunc(" ++ g2 ++ str ", " ++ g1 ++ str ")")⟩,
  ⟨"unix_timestamp", .opt fun g =>
    .ok (str "to_unixtime(" ++ (if g.isEmpty then str "now()" else g) ++ str ")")⟩,
  ⟨"weekofyear", .one fun g => .ok (str "week(" ++ g ++ str ")")⟩,
  ⟨"current_timestamp", .zero (str "CAST(NOW() AS TIMESTAMP)")⟩]

/-- The per-call conversion statistics record. -/
structure Stats where
  total_conversions : Nat
  functions_converted : List (String × Nat)
  errors : Nat
deriving DecidableEq

/-- The fresh statistics record built at the start of each call. -/
def Stats.init : Stats := ⟨0, [], 0⟩

/-- The mutable state of one conversion run: working text, warning list and
statistics. -/
structure EngSt where
  text : List Char
  warnings : List String
  stats : Stats
deriving DecidableEq

/-- One iteration of the rule-engine loop (the body of the
`for func_name, mapping in function_mappings.items()` loop): count matches,
substitute, count again, record `before - after` when positive; an exception
is caught, producing one warning and one error count and leaving the text as
it stood. -/
def applyRule (st : EngSt) (r : Rule) : EngSt :=
  let before := pyCount r.pat r.kind.shape st.text
  match pySub r.pat r.kind.shape r.kind.apply st.text with
  | .error e =>
    { st with
      warnings := st.warnings ++ ["Warning: Failed to apply " ++ r.name ++ " conversion: " ++ e],
      stats := { st.stats with errors := st.stats.errors + 1 } }
  | .ok t =>
    let after := pyCount r.pat r.kind.shape t
    if after < before then
      { text := t,
        warnings := st.warnings,
        stats :=
          { total_conversions := st.stats.total_conversions + (before - after),
            functions_converted := st.stats.functions_converted ++ [(r.name, before - after)],
            errors := st.stats.errors } }
    else
      { st with text := t }

/-- The whole rule-engine loop over the registry. -/
def runRules (sql : List Char) : EngSt :=
  function_mappings.foldl applyRule ⟨sql, [], Stats.init⟩

/-- A post-processing literal pattern: a case-insensitive literal, optionally
guarded by `\b` word boundaries on either side. -/
structure LitPat where
  lit : List Char
  wordL : Bool
  wordR : Bool

/-- Word-boundary test against the character adjacent to the match (string
edges count as boundaries). -/
def noWordEdge : Option Char → Bool
  | none => true
  | some c => !isWord c

/-- Attempt to match a literal pattern at the front of `s`, `prev` being the
character immediately before this position. -/
def litMatchAt (p : LitPat) (prev : Option Char) (s : List Char) : Option (List Char) :=
  match ciDrop p.lit s with
  | none => none
  | some rest =>
    if (!p.wordL || noWordEdge prev) && (!p.wordR || noWordEdge rest.head?) then
      some rest
    else none

/-- Fuelled `re.sub` of a literal pattern by a fixed replacement, scanning left
to right and tracking the previous character for the word boundaries. -/
def litSubF (p : LitPat) (out : List Char) : Nat → Option Char → List Char → List Char
  | 0, _, s => s
  | _ + 1, _, [] => []
  | f + 1, prev, c :: s' =>
    match litMatchAt p prev (c :: s') with
    | some rest => out ++ litSubF p out f (p.lit.getLast?) rest
    | none => c :: litSubF p out f (some c) s'

/-- `re.sub` of a literal pattern (case-insensitive). -/
def litSub (p : LitPat) (out : List Char) (s : List Char) : List Char :=
  litSubF p out s.length none s

/-- One match attempt of `\binterval (\d+) ` (case-insensitive): a left word
boundary, the literal `interval`, one space, a digit run, one space. -/
def intervalMatchAt (prev : Option Char) (s : List Char) : Option (List Char × List Char) :=
  if noWordEdge prev then
    match ciDrop (str "interval ") s with
    | none => none
    | some r1 =>
      match r1.takeWhile (fun c => isDigitCh c), r1.dropWhile (fun c => isDigitCh c) with
      | d :: ds, ' ' :: r2 => some (d :: ds, r2)
      | _, _ => none
  else none

/-- Fuelled `re.sub(r'\binterval (\d+) ', r"INTERVAL '\1' ", s, re.IGNORECASE)`:
on a match the digit run is re-emitted single-quoted. -/
def intervalSubF : Nat → Option Char → List Char → List Char
  | 0, _, s => s
  | _ + 1, _, [] => []
  | f + 1, prev, c :: s' =>
    match intervalMatchAt prev (c :: s') with
    | some (ds, r2) =>
      str "INTERVAL '" ++ ds ++ str "' " ++ intervalSubF f (some ' ') r2
    | none => c :: intervalSubF f (some c) s'

/-- `re.sub` for the interval-quoting rewrite. -/
def intervalSub (s : List Char) : List Char := intervalSubF s.length none s

/-- `re.sub(r'\\+', r'\\\\', s)`: every maximal backslash run becomes exactly
two backslashes.  `inRun` records whether the pair for the current run has
already been emitted. -/
def bsNormGo : List Char → Bool → List Char
  | [], _ => []
  | c :: rest, inRun =>
    if c = '\\' then
      if inRun then bsNormGo rest true else '\\' :: '\\' :: bsNormGo rest true
    else c :: bsNormGo rest false

/-- Backslash-run normalization. -/
def bsNorm (s : List Char) : List Char := bsNormGo s false

/-- The backtick character (U+0060). -/
def btick : Char := Char.ofNat 96

/-- The `type_mappings` word renames, in dictionary order. -/
def type_mappings : List (LitPat × List Char) := [
  (⟨str "string", true, true⟩, str "VARCHAR"),
  (⟨str "float", true, true⟩, str "DOUBLE"),
  (⟨str "int", true, true⟩, str "INTEGER"),
  (⟨str "bigint", true, true⟩, str "BIGINT")]

/-- The `function_replacements` literal renames, in dictionary order (the
`default\.` patterns and `'EDT'` carry no word boundaries; `\btempdb\b` does).
All are applied case-insensitively. -/
def function_replacements : List (LitPat × List Char) := [
  (⟨str "default.gb_format_datetime", false, false⟩, str "gb_format_datetime"),
  (⟨str "default.gb_json_parser", false, false⟩, str "gb_json_parser"),
  (⟨str "default.gb_to_est", false, false⟩, str "gb_to_est"),
  (⟨str "default.gb_completed_months", false, false⟩, str "gb_completed_months"),
  (⟨str "tempdb", true, true⟩, str "caastle_insights"),
  (⟨str "'EDT'", false, false⟩, str "'EST5EDT'")]

/-- `_apply_additional_transformations`: type renames, backtick to double
quote, interval quoting, backslash normalization, then the fixed identifier
renames. -/
def _apply_additional_transformations (sql : List Char) : List Char :=
  let s := type_mappings.foldl (fun t pr => litSub pr.1 pr.2 t) sql
  let s := s.map (fun c => if c = btick then '"' else c)
  let s := intervalSub s
  let s := bsNorm s
  function_replacements.foldl (fun t pr => litSub pr.1 pr.2 t) s

/-- Case-insensitive substring test (`needle in haystack.lower()` with a
lower-case needle). -/
def hasSub (needle : List Char) : List Char → Bool
  | [] => needle.isEmpty
  | c :: s' => (ciDrop needle (c :: s')).isSome || hasSub needle s'

/-- Count occurrences of a character. -/
def cCount (c : Char) (s : List Char) : Nat := (s.filter (fun d => d = c)).length

/-- `_validate_converted_sql`: the heuristic warnings scanned off the final
text. -/
def _validate_converted_sql (sql : List Char) : List String :=
  (if hasSub (str "add_months(") sql then ["Potential unconverted add_months function detected"] else []) ++
  (if hasSub (str "datediff(") sql then ["Potential unconverted datediff function detected"] else []) ++
  (if hasSub (str "current_timestamp()") sql then ["Potential unconverted current_timestamp function detected"] else []) ++
  (if cCount '(' sql ≠ cCount ')' sql then ["Unbalanced parentheses detected"] else []) ++
  (if hasSub (str "group_concat(") sql then ["group_concat function detected - verify conversion to array_join"] else [])

/-- The result triple of a completed conversion. -/
structure ConvResult where
  text : List Char
  warnings : List String
  stats : Stats
deriving DecidableEq

/-- `replace_func`: the whole pipeline.  In this embedding the post-processing
pass and the validator are total, so the outer `try` never fires and the run
always returns its triple (see `replace_func_gen` for the fatal path). -/
def replace_func (sql : List Char) : ConvResult :=
  let st := runRules sql
  let t := _apply_additional_transformations st.text
  let vw := _validate_converted_sql t
  ⟨t, st.warnings ++ vw, st.stats⟩

/-- `replace_func` with the post-processing pass abstracted as a possibly
raising step, to model the outer `try ... except` of the source: an exception
`e` after the rule loop appends the fatal warning, increments the error
counter and re-raises, so the caller receives no result triple.  The error
value records the re-raised message together with the internal warning list
and statistics at the moment of the raise. -/
def replace_func_gen (post : List Char → Except String (List Char)) (sql : List Char) :
    Except (String × List String × Stats) ConvResult :=
  let st := runRules sql
  match post st.text with
  | .error e =>
    .error (e, st.warnings ++ ["Failed to convert SQL: " ++ e],
      { st.stats with errors := st.stats.errors + 1 })
  | .ok t =>
    .ok ⟨t, st.warnings ++ _validate_converted_sql t, st.stats⟩

/-- Lengths of the maximal backslash runs of a string, in order; `n` is the
length of the run currently being read. -/
def bsRunsGo : List Char → Nat → List Nat
  | [], 0 => []
  | [], n + 1 => [n + 1]
  | c :: rest, n =>
    if c = '\\' then bsRunsGo rest (n + 1)
    else if n = 0 then bsRunsGo rest 0 else n :: bsRunsGo rest 0

/-- Lengths of the maximal backslash runs of a string. -/
def bsRuns (s : List Char) : List Nat := bsRunsGo s 0

/-- Every maximal backslash run has length exactly two. -/
def BsOk (s : List Char) : Prop := ∀ n ∈ bsRuns s, n = 2

/-- The statistics invariants: the total equals the sum of the per-rule
counts, and every recorded count is at least 1. -/
def StatsOk (st : Stats) : Prop :=
  st.total_conversions = (st.functions_converted.map Prod.snd).sum ∧
  ∀ p ∈ st.functions_converted, 1 ≤ p.2



/-- The group-2 capture of `\s*([^)]+)\)` as a function of the whole
non-`)` run `v` between the comma and the closing parenthesis: the run minus
its whitespace prefix, or the run's last character when the run is all
whitespace (the backtracking case). -/
def computeG2 (v : List Char) : List Char :=
  match v.dropWhile (fun d => isWs d) with
  | [] => v.reverse.take 1
  | g2 => g2

/-- A self-contained match span for the two-argument pattern named `nm`: a
piece of text that the matcher consumes exactly, with the same captures, in
every right context. -/
def SelfSpan (nm C : List Char) : Prop :=
  ∃ gs, ∀ t, matchTwo nm (C ++ t) = some (gs, t)

/-- `HasSpans nm T k`: the text `T` contains `k` pairwise disjoint
self-contained match spans, in order. -/
inductive HasSpans (nm : List Char) : List Char → Nat → Prop
  | zero (T : List Char) : HasSpans nm T 0
  | more (A S R : List Char) (k : Nat) : SelfSpan nm S → HasSpans nm R k →
      HasSpans nm (A ++ S ++ R) (k + 1)

deriving instance DecidableEq for Except

theorem ciDrop_len : ∀ {nm s r : List Char}, ciDrop nm s = some r → r.length ≤ s.length
  | [], s, r, h => by
    simp only [ciDrop, Option.some.injEq] at h
    exact h ▸ Nat.le_refl _
  | n :: ns, c :: cs, r, h => by
    simp only [ciDrop] at h
    split at h
    · exact Nat.le_succ_of_le (ciDrop_len h)
    · exact absurd h (by simp)

theorem dropWhile_cons_len {p : Char → Bool} {s t : List Char} {c : Char}
    (h : s.dropWhile p = c :: t) : t.length < s.length := by
  have hs := (List.dropWhile_suffix (l := s) p).length_le
  rw [h] at hs
  exact Nat.lt_of_lt_of_le (by simp) hs

theorem wsParen_len {s r : List Char} (h : wsParen s = some r) : r.length < s.length := by
  unfold wsParen at h
  split at h
  · next heq =>
      cases h
      exact dropWhile_cons_len heq
  · exact absurd h (by simp)

theorem arg1_len {s g r : List Char} (h : arg1 s = some (g, r)) : r.length < s.length := by
  unfold arg1 at h
  split at h
  · exact absurd h (by simp)
  · next c g1 r' htk hdp =>
      cases h
      exact dropWhile_cons_len hdp
  · exact absurd h (by simp)

theorem arg2_len {s g r : List Char} (h : arg2 s = some (g, r)) : r.length < s.length := by
  unfold arg2 at h
  split at h
  · exact absurd h (by simp)
  · next c run r' htk hdp =>
      have hlt := dropWhile_cons_len hdp
      split at h
      · split at h
        · cases h; exact hlt
        · exact absurd h (by simp)
      · cases h; exact hlt
  · exact absurd h (by simp)

theorem argP_len {b : Bool} {s g r : List Char} (h : argP b s = some (g, r)) :
    r.length < s.length := by
  unfold argP at h
  split at h
  · next r' heq =>
      split at h
      · exact absurd h (by simp)
      · cases h; exact dropWhile_cons_len heq
  · exact absurd h (by simp)

theorem matchTwo_len {nm s : List Char} {gs : List (List Char)} {r : List Char}
    (h : matchTwo nm s = some (gs, r)) : r.length < s.length := by
  unfold matchTwo at h
  split at h
  · exact absurd h (by simp)
  · next s1 h1 =>
      split at h
      · exact absurd h (by simp)
      · next s2 h2 =>
          have hbase : s2.length < s.length :=
            Nat.lt_of_lt_of_le (wsParen_len h2) (ciDrop_len h1)
          split at h
          · exact absurd h (by simp)
          · next g1 s3 h3 =>
              split at h
              · exact absurd h (by simp)
              · next g2 s4 h4 =>
                  cases h
                  exact Nat.lt_trans (Nat.lt_trans (arg2_len h4) (arg1_len h3)) hbase

theorem matchOneOpt_len {b : Bool} {nm s : List Char} {gs : List (List Char)} {r : List Char}
    (h : matchOneOpt b nm s = some (gs, r)) : r.length < s.length := by
  unfold matchOneOpt at h
  split at h
  · exact absurd h (by simp)
  · next s1 h1 =>
      split at h
      · exact absurd h (by simp)
      · next s2 h2 =>
          have hbase : s2.length < s.length :=
            Nat.lt_of_lt_of_le (wsParen_len h2) (ciDrop_len h1)
          split at h
          · exact absurd h (by simp)
          · next g s3 h3 =>
              cases h
              exact Nat.lt_trans (argP_len h3) hbase

theorem matchZero_len {nm s : List Char} {gs : List (List Char)} {r : List Char}
    (h : matchZero nm s = some (gs, r)) : r.length < s.length := by
  unfold matchZero at h
  split at h
  · exact absurd h (by simp)
  · next s1 h1 =>
      split at h
      · exact absurd h (by simp)
      · next s2 h2 =>
          have hbase : s2.length < s.length :=
            Nat.lt_of_lt_of_le (wsParen_len h2) (ciDrop_len h1)
          split at h
          · cases h
            exact Nat.lt_trans (Nat.lt_succ_self _) hbase
          · exact absurd h (by simp)

theorem matchAt_len {nm : List Char} {sh : Shape} {s : List Char}
    {gs : List (List Char)} {r : List Char} (h : matchAt nm sh s = some (gs, r)) :
    r.length < s.length := by
  cases sh
  · exact matchTwo_len h
  · exact matchOneOpt_len h
  · exact matchOneOpt_len h
  · exact matchZero_len h

theorem findSplit_len {nm : List Char} {sh : Shape} :
    ∀ {s pre : List Char} {gs : List (List Char)} {rest : List Char},
      findSplit nm sh s = some (pre, gs, rest) → rest.length < s.length
  | [], _, _, _, h => absurd h (by simp [findSplit])
  | c :: s', pre, gs, rest, h => by
    unfold findSplit at h
    split at h
    · next heq =>
        cases h
        exact matchAt_len heq
    · split at h
      · exact absurd h (by simp)
      · next pre' gs' rest' hf =>
          cases h
          exact Nat.lt_succ_of_lt (findSplit_len hf)

theorem cntF_irrel {nm : List Char} {sh : Shape} :
    ∀ (f1 f2 : Nat) (s : List Char), s.length ≤ f1 → s.length ≤ f2 →
      cntF nm sh f1 s = cntF nm sh f2 s
  | 0, f2, s, h1, _ => by
    have hs : s = [] := List.eq_nil_of_length_eq_zero (Nat.le_zero.mp h1)
    subst hs
    cases f2 <;> simp [cntF, findSplit]
  | f1 + 1, 0, s, _, h2 => by
    have hs : s = [] := List.eq_nil_of_length_eq_zero (Nat.le_zero.mp h2)
    subst hs
    simp [cntF, findSplit]
  | f1 + 1, f2 + 1, s, h1, h2 => by
    simp only [cntF]
    split
    · rfl
    · next pre gs rest hf =>
        have hr := findSplit_len hf
        rw [cntF_irrel f1 f2 rest (by omega) (by omega)]

theorem subF_irrel {nm : List Char} {sh : Shape}
    {repl : List (List Char) → Except String (List Char)} :
    ∀ (f1 f2 : Nat) (s : List Char), s.length ≤ f1 → s.length ≤ f2 →
      subF nm sh repl f1 s = subF nm sh repl f2 s
  | 0, f2, s, h1, _ => by
    have hs : s = [] := List.eq_nil_of_length_eq_zero (Nat.le_zero.mp h1)
    subst hs
    cases f2 <;> simp [subF, findSplit]
  | f1 + 1, 0, s, _, h2 => by
    have hs : s = [] := List.eq_nil_of_length_eq_zero (Nat.le_zero.mp h2)
    subst hs
    simp [subF, findSplit]
  | f1 + 1, f2 + 1, s, h1, h2 => by
    simp only [subF]
    split
    · rfl
    · next pre gs rest hf =>
        have hr := findSplit_len hf
        rw [subF_irrel f1 f2 rest (by omega) (by omega)]

theorem pyCount_none {nm : List Char} {sh : Shape} {s : List Char}
    (h : findSplit nm sh s = none) : pyCount nm sh s = 0 := by
  unfold pyCount
  cases s with
  | nil => rfl
  | cons c s' => simp [cntF, h]

theorem pyCount_some {nm : List Char} {sh : Shape} {s pre : List Char}
    {gs : List (List Char)} {rest : List Char}
    (h : findSplit nm sh s = some (pre, gs, rest)) :
    pyCount nm sh s = 1 + pyCount nm sh rest := by
  have hlen := findSplit_len h
  unfold pyCount
  cases s with
  | nil => exact absurd h (by simp [findSplit])
  | cons c s' =>
    show cntF nm sh (s'.length + 1) (c :: s') = _
    simp only [cntF, h]
    rw [cntF_irrel s'.length rest.length rest (by simpa using Nat.lt_succ_iff.mp hlen) (Nat.le_refl _)]

theorem pySub_none {nm : List Char} {sh : Shape}
    {repl : List (List Char) → Except String (List Char)} {s : List Char}
    (h : findSplit nm sh s = none) : pySub nm sh repl s = .ok s := by
  unfold pySub
  cases s with
  | nil => rfl
  | cons c s' => simp [subF, h]

theorem pySub_some {nm : List Char} {sh : Shape}
    {repl : List (List Char) → Except String (List Char)} {s pre : List Char}
    {gs : List (List Char)} {rest : List Char}
    (h : findSplit nm sh s = some (pre, gs, rest)) :
    pySub nm sh repl s =
      (do
        let o ← repl gs
        let t ← pySub nm sh repl rest
        .ok (pre ++ o ++ t)) := by
  have hlen := findSplit_len h
  unfold pySub
  cases s with
  | nil => exact absurd h (by simp [findSplit])
  | cons c s' =>
    show subF nm sh repl (s'.length + 1) (c :: s') = _
    simp only [subF, h]
    rw [subF_irrel s'.length rest.length rest (by simpa using Nat.lt_succ_iff.mp hlen) (Nat.le_refl _)]

/-- C1, counterexample.  The claim fails at the `trunc` rule: the string
`trunc(a, b)` contains exactly one well-formed two-argument `trunc`
invocation, yet the full conversion records no conversion at all for `trunc`
(the stats are empty), because the rewritten output `date_trunc(b, a)` itself
still matches the case-insensitive `trunc` matcher (one remaining match). -/
theorem c1_counterexample :
    pyCount (str "trunc") Shape.two (str "trunc(a, b)") = 1 ∧
    replace_func (str "trunc(a, b)") = ⟨str "date_trunc(b, a)", [], ⟨0, [], 0⟩⟩ ∧
    pyCount (str "trunc") Shape.two (str "date_trunc(b, a)") = 1 := by
  refine ⟨by decide, by decide, by decide⟩

/-- C1, amended.  For every rule of the table except `date_add`, `trunc` and
`strleft`, running the full conversion on a canonical string holding exactly
one well-formed invocation of that rule's construct (simple identifier
arguments, documented arity) leaves zero case-insensitive matches for the
rule's matcher and records exactly one conversion under that rule's name.
The three exceptions behave differently: the `date_add` and `trunc` rewrite
outputs re-match their own patterns, so zero conversions are recorded and one
match remains (on the canonical `adddate` run the `date_add` rule additionally
records an error, since the `adddate` output's second argument splits into two
space-separated tokens and the helper indexes a third); and a `strleft`
invocation is
consumed by the earlier `left` rule, so its conversion is recorded under
`left` and the text becomes `strsubstring(...)`. -/
theorem c1_amended :
    (replace_func (str "add_months(a, 3)") =
      ⟨str "date_add('AS', CAST(a, 'month'))", [], ⟨1, [("add_months", 1)], 0⟩⟩ ∧
     pyCount (str "add_months") Shape.two (str "date_add('AS', CAST(a, 'month'))") = 0) ∧
    (replace_func (str "adddate(a, 3)") =
      ⟨str "date_add('day', 3, a)",
       ["Warning: Failed to apply date_add conversion: list index out of range"],
       ⟨1, [("adddate", 1)], 1⟩⟩ ∧
     pyCount (str "adddate") Shape.two (str "date_add('day', 3, a)") = 0) ∧
    (replace_func (str "date_add(a, 3)") =
      ⟨str "date_add('day', 3, CAST(a AS TIMESTAMP))", [], ⟨0, [], 0⟩⟩ ∧
     pyCount (str "date_add") Shape.two (str "date_add('day', 3, CAST(a AS TIMESTAMP))") = 1) ∧
    (replace_func (str "date_part('year', a)") =
      ⟨str "extract(year FROM a)", [], ⟨1, [("date_part", 1)], 0⟩⟩ ∧
     pyCount (str "date_part") Shape.two (str "extract(year FROM a)") = 0) ∧
    (replace_func (str "date_sub(a, 3)") =
      ⟨str "date_add('day', -3, a)", [], ⟨1, [("date_sub", 1)], 0⟩⟩ ∧
     pyCount (str "date_sub") Shape.two (str "date_add('day', -3, a)") = 0) ∧
    (replace_func (str "datediff(a, b)") =
      ⟨str "date_diff('day', b, a)", [], ⟨1, [("datediff", 1)], 0⟩⟩ ∧
     pyCount (str "datediff") Shape.two (str "date_diff('day', b, a)") = 0) ∧
    (replace_func (str "dayofmonth(a)") =
      ⟨str "DAY(a)", [], ⟨1, [("dayofmonth", 1)], 0⟩⟩ ∧
     pyCount (str "dayofmonth") Shape.one (str "DAY(a)") = 0) ∧
    (replace_func (str "dayofweek(a)") =
      ⟨str "IF(day_of_week(a)+1 > 7, 1, day_of_week(a)+1)", [], ⟨1, [("dayofweek", 1)], 0⟩⟩ ∧
     pyCount (str "dayofweek") Shape.one (str "IF(day_of_week(a)+1 > 7, 1, day_of_week(a)+1)") = 0) ∧
    (replace_func (str "from_utc_timestamp(a, b)") =
      ⟨str "at_timezone(a, b)", [], ⟨1, [("from_utc_timestamp", 1)], 0⟩⟩ ∧
     pyCount (str "from_utc_timestamp") Shape.two (str "at_timezone(a, b)") = 0) ∧
    (replace_func (str "to_utc_timestamp(a, b)") =
      ⟨str "at_timezone(a, 'UTC')", [], ⟨1, [("to_utc_timestamp", 1)], 0⟩⟩ ∧
     pyCount (str "to_utc_timestamp") Shape.two (str "at_timezone(a, 'UTC')") = 0) ∧
    (replace_func (str "group_concat(x)") =
      ⟨str "array_join(array_agg(x), ',')", [], ⟨1, [("group_concat", 1)], 0⟩⟩ ∧
     pyCount (str "group_concat") Shape.one (str "array_join(array_agg(x), ',')") = 0) ∧
    (replace_func (str "ifnull(a, b)") =
      ⟨str "COALESCE(a, b)", [], ⟨1, [("ifnull", 1)], 0⟩⟩ ∧
     pyCount (str "ifnull") Shape.two (str "COALESCE(a, b)") = 0) ∧
    (replace_func (str "instr(a, b)") =
      ⟨str "strpos(a, b)", [], ⟨1, [("instr", 1)], 0⟩⟩ ∧
     pyCount (str "instr") Shape.two (str "strpos(a, b)") = 0) ∧
    (replace_func (str "int_months_between(a, b)") =
      ⟨str "date_diff('month', b, a)", [], ⟨1, [("int_months_between", 1)], 0⟩⟩ ∧
     pyCount (str "int_months_between") Shape.two (str "date_diff('month', b, a)") = 0) ∧
    (replace_func (str "left(s, n)") =
      ⟨str "substring(s, 1, n)", [], ⟨1, [("left", 1)], 0⟩⟩ ∧
     pyCount (str "left") Shape.two (str "substring(s, 1, n)") = 0) ∧
    (replace_func (str "strleft(s, n)") =
      ⟨str "strsubstring(s, 1, n)", [], ⟨1, [("left", 1)], 0⟩⟩ ∧
     pyCount (str "strleft") Shape.two (str "strsubstring(s, 1, n)") = 0) ∧
    (replace_func (str "strright(s, n)") =
      ⟨str "substring(s, -n)", [], ⟨1, [("strright", 1)], 0⟩⟩ ∧
     pyCount (str "strright") Shape.two (str "substring(s, -n)") = 0) ∧
    (replace_func (str "right(s, n)") =
      ⟨str "substring(s, -n)", [], ⟨1, [("right", 1)], 0⟩⟩ ∧
     pyCount (str "right") Shape.two (str "substring(s, -n)") = 0) ∧
    (replace_func (str "to_date(x)") =
      ⟨str "date(x)", [], ⟨1, [("to_date", 1)], 0⟩⟩ ∧
     pyCount (str "to_date") Shape.one (str "date(x)") = 0) ∧
    (replace_func (str "trunc(a, b)") =
      ⟨str "date_trunc(b, a)", [], ⟨0, [], 0⟩⟩ ∧
     pyCount (str "trunc") Shape.two (str "date_trunc(b, a)") = 1) ∧
    (replace_func (str "unix_timestamp(a)") =
      ⟨str "to_unixtime(a)", [], ⟨1, [("unix_timestamp", 1)], 0⟩⟩ ∧
     pyCount (str "unix_timestamp") Shape.opt (str "to_unixtime(a)") = 0) ∧
    (replace_func (str "weekofyear(a)") =
      ⟨str "week(a)", [], ⟨1, [("weekofyear", 1)], 0⟩⟩ ∧
     pyCount (str "weekofyear") Shape.one (str "week(a)") = 0) ∧
    (replace_func (str "current_timestamp()") =
      ⟨str "CAST(NOW() AS TIMESTAMP)", [], ⟨1, [("current_timestamp", 1)], 0⟩⟩ ∧
     pyCount (str "current_timestamp") Shape.zero (str "CAST(NOW() AS TIMESTAMP)") = 0) := by
  exact ⟨⟨by decide, by decide⟩, ⟨by decide, by decide⟩, ⟨by decide, by decide⟩,
    ⟨by decide, by decide⟩, ⟨by decide, by decide⟩, ⟨by decide, by decide⟩,
    ⟨by decide, by decide⟩, ⟨by decide, by decide⟩, ⟨by decide, by decide⟩,
    ⟨by decide, by decide⟩, ⟨by decide, by decide⟩, ⟨by decide, by decide⟩,
    ⟨by decide, by decide⟩, ⟨by decide, by decide⟩, ⟨by decide, by decide⟩,
    ⟨by decide, by decide⟩, ⟨by decide, by decide⟩, ⟨by decide, by decide⟩,
    ⟨by decide, by decide⟩, ⟨by decide, by decide⟩, ⟨by decide, by decide⟩,
    ⟨by decide, by decide⟩, ⟨by decide, by decide⟩⟩

/-- C3 (code bug), evaluation at the failing input.  On `strleft(a, 3)` the
conversion does not produce `substring(a, 1, 3)` as the rule table's own
`strleft` entry specifies: the earlier `left` rule matches the suffix
`left(a, 3)` inside `strleft(a, 3)` first (its pattern has no word boundary),
so the pipeline returns `strsubstring(a, 1, 3)` and attributes the conversion
to `left`.  The `strleft` entry, unlike the correctly ordered
`strright`/`right` pair, is unreachable on well-formed input. -/
theorem c3_strleft_eval :
    replace_func (str "strleft(a, 3)") =
      ⟨str "strsubstring(a, 1, 3)", [], ⟨1, [("left", 1)], 0⟩⟩ ∧
    findSplit (str "left") Shape.two (str "strleft(a, 3)") =
      some (str "str", [str "a", str "3"], []) := by
  refine ⟨by decide, by decide⟩

/-- C10.  A `date_add` call whose second argument splits into exactly two
tokens falls outside the single-token / triple dichotomy: `_replace_date_add`
reads token index 2 and raises `IndexError` (`list index out of range`).  The
engine absorbs it as exactly one warning naming the rule and the message, one
error increment, and leaves the text (and hence the original call) unchanged;
no conversion is recorded. -/
theorem c10_date_add_two_tokens :
    _replace_date_add (str "d") (str "3 months") = .error "list index out of range" ∧
    replace_func (str "date_add(d, 3 months)") =
      ⟨str "date_add(d, 3 months)",
       ["Warning: Failed to apply date_add conversion: list index out of range"],
       ⟨0, [], 1⟩⟩ := by
  refine ⟨by rfl, by decide⟩

/-- C4.  `date_sub` mirrors `date_add` with negation: when the second capture
splits to a single token the rewrite yields `date_add('day', -value, date)`;
when it splits to a triple the middle token is the amount and the last token
the unit with one trailing `s` stripped, yielding `date_add('unit', -amount,
date)`; and concretely the full conversion sends `date_sub(col, interval 2
days)` to `date_add('day', -2, col)`. -/
theorem c4_date_sub_mirrors :
    (∀ g1 g2 t : List Char, pySplit g2 = [t] →
      _replace_date_sub g1 g2 =
        .ok (str "date_add('day', -" ++ g2 ++ str ", " ++ g1 ++ str ")")) ∧
    (∀ g1 g2 a b c : List Char, pySplit g2 = [a, b, c] →
      _replace_date_sub g1 g2 =
        .ok (str "date_add('" ++ (if c.getLast? = some 's' then c.dropLast else c) ++
          str "', -" ++ b ++ str ", " ++ g1 ++ str ")")) ∧
    replace_func (str "date_sub(col, interval 2 days)") =
      ⟨str "date_add('day', -2, col)", [], ⟨1, [("date_sub", 1)], 0⟩⟩ := by
  refine ⟨?_, ?_, by decide⟩
  · intro g1 g2 t h
    unfold _replace_date_sub
    rw [h]
  · intro g1 g2 a b c h
    unfold _replace_date_sub
    rw [h]

/-- C4, witness: the two universally quantified parts of `c4_date_sub_mirrors`
applied at `date_sub(d, 5)` and `date_sub(col, interval 2 days)` captures. -/
theorem c4_date_sub_mirrors_witness :
    _replace_date_sub (str "d") (str "5") = .ok (str "date_add('day', -5, d)") ∧
    _replace_date_sub (str "col") (str "interval 2 days") =
      .ok (str "date_add('day', -2, col)") := by
  constructor
  · have h := c4_date_sub_mirrors.1 (str "d") (str "5") (str "5") (by decide)
    exact h.trans (by rfl)
  · have h := c4_date_sub_mirrors.2.1 (str "col") (str "interval 2 days")
      (str "interval") (str "2") (str "days") (by decide)
    exact h.trans (by rfl)

/-- C7, counterexample.  The input `date_add(d, (x 2 days)` has two `(` and
one `)`, yet the conversion's warning list is empty: the `date_add` rewrite
drops the token carrying the stray `(`, the final text `date_add('day', 2, d)`
is balanced, and the validator only inspects the final text. -/
theorem c7_counterexample :
    cCount '(' (str "date_add(d, (x 2 days)") = 2 ∧
    cCount ')' (str "date_add(d, (x 2 days)") = 1 ∧
    replace_func (str "date_add(d, (x 2 days)") =
      ⟨str "date_add('day', 2, d)", [], ⟨0, [], 0⟩⟩ := by
  refine ⟨by decide, by decide, by decide⟩

/-- C8, counterexample.  In `date_add(d, \ 2 days)` the input's single
maximal backslash run (length 1) is not replaced by two backslashes: the
`date_add` rewrite drops the token containing it, and the returned text
`date_add('day', 2, d)` contains no backslash at all. -/
theorem c8_counterexample :
    bsRuns (str "date_add(d, \\ 2 days)") = [1] ∧
    replace_func (str "date_add(d, \\ 2 days)") =
      ⟨str "date_add('day', 2, d)", [], ⟨0, [], 0⟩⟩ ∧
    bsRuns (str "date_add('day', 2, d)") = [] := by
  refine ⟨by decide, by decide, by decide⟩

/-- C5.  Per-rule error recovery: whenever applying a rule's substitution
raises, the engine appends exactly one warning naming that rule and the error
message, increments the error counter by exactly one, leaves the working text
and the recorded conversions untouched, and the loop goes on with the next
rule (no exception escapes a loop iteration).  The closed conjunct shows a
whole run in which the `date_add` rule fails this way while the later
`ifnull` rule still converts. -/
theorem c5_per_rule_error_recovery :
    (∀ (r : Rule) (st : EngSt) (e : String),
      pySub r.pat r.kind.shape r.kind.apply st.text = .error e →
      applyRule st r =
        ⟨st.text,
         st.warnings ++ ["Warning: Failed to apply " ++ r.name ++ " conversion: " ++ e],
         ⟨st.stats.total_conversions, st.stats.functions_converted, st.stats.errors + 1⟩⟩) ∧
    (∀ (r : Rule) (rs : List Rule) (st : EngSt),
      (r :: rs).foldl applyRule st = rs.foldl applyRule (applyRule st r)) ∧
    replace_func (str "date_add(a, 1 2) ifnull(x, y)") =
      ⟨str "date_add(a, 1 2) COALESCE(x, y)",
       ["Warning: Failed to apply date_add conversion: list index out of range"],
       ⟨1, [("ifnull", 1)], 1⟩⟩ := by
  refine ⟨?_, fun r rs st => List.foldl_cons .., by decide⟩
  intro r st e h
  unfold applyRule
  rw [h]

/-- C6.  Fatal path: if the post-processing step (or anything after the rule
loop) raises `e`, the orchestration appends the `Failed to convert SQL`
warning, increments the error counter, and re-raises `e`, so the caller
receives no result triple. -/
theorem c6_fatal_reraise :
    ∀ (post : List Char → Except String (List Char)) (sql : List Char) (e : String),
      post (runRules sql).text = .error e →
      replace_func_gen post sql =
        .error (e, (runRules sql).warnings ++ ["Failed to convert SQL: " ++ e],
          ⟨(runRules sql).stats.total_conversions,
           (runRules sql).stats.functions_converted,
           (runRules sql).stats.errors + 1⟩) := by
  intro post sql e h
  simp only [replace_func_gen]
  rw [h]

/-- C6, witness: `c6_fatal_reraise` at a post-processing step that raises
`boom` on the empty input. -/
theorem c6_fatal_reraise_witness :
    replace_func_gen (fun _ => .error "boom") [] =
      .error ("boom", ["Failed to convert SQL: boom"], ⟨0, [], 1⟩) := by
  have h := c6_fatal_reraise (fun _ => .error "boom") [] "boom" (by rfl)
  exact h.trans (by rfl)

/-- C5, witness: the per-rule recovery equation of
`c5_per_rule_error_recovery` applied to the `date_add` rule on a state whose
text makes its rewrite raise, and its loop-step equation at that rule. -/
theorem c5_per_rule_error_recovery_witness :
    applyRule ⟨str "date_add(a, 1 2)", [], ⟨0, [], 0⟩⟩ ⟨"date_add", .two _replace_date_add⟩ =
      ⟨str "date_add(a, 1 2)",
       ["Warning: Failed to apply date_add conversion: list index out of range"],
       ⟨0, [], 1⟩⟩ ∧
    [Rule.mk "date_add" (.two _replace_date_add)].foldl applyRule
        ⟨str "date_add(a, 1 2)", [], ⟨0, [], 0⟩⟩ =
      applyRule ⟨str "date_add(a, 1 2)", [], ⟨0, [], 0⟩⟩ ⟨"date_add", .two _replace_date_add⟩ := by
  constructor
  · have h := c5_per_rule_error_recovery.1 ⟨"date_add", .two _replace_date_add⟩
      ⟨str "date_add(a, 1 2)", [], ⟨0, [], 0⟩⟩ "list index out of range" (by decide)
    exact h.trans (by decide)
  · exact c5_per_rule_error_recovery.2.1 ⟨"date_add", .two _replace_date_add⟩ []
      ⟨str "date_add(a, 1 2)", [], ⟨0, [], 0⟩⟩

theorem applyRule_statsOk {st : EngSt} {r : Rule} (h : StatsOk st.stats) :
    StatsOk (applyRule st r).stats := by
  simp only [applyRule]
  split
  · exact h
  · split
    · next hlt =>
        obtain ⟨hsum, hmem⟩ := h
        constructor
        · simp [hsum]
        · intro p hp
          rcases List.mem_append.mp hp with hp | hp
          · exact hmem p hp
          · simp only [List.mem_singleton] at hp
            subst hp
            exact Nat.le_sub_of_add_le (by omega)
    · exact h

theorem foldl_statsOk : ∀ (rs : List Rule) (st : EngSt), StatsOk st.stats →
    StatsOk (rs.foldl applyRule st).stats
  | [], st, h => h
  | r :: rs, st, h => by
    rw [List.foldl_cons]
    exact foldl_statsOk rs (applyRule st r) (applyRule_statsOk h)

theorem replace_func_stats_eq (sql : List Char) :
    (replace_func sql).stats = (runRules sql).stats := by
  simp only [replace_func]

/-- C9.  Statistics invariants of every run: every recorded per-rule count is
at least 1, `total_conversions` equals the sum of the recorded counts, and
the error counter (a natural number) is non-negative. -/
theorem c9_stats_invariants :
    ∀ sql : List Char,
      (∀ p ∈ (replace_func sql).stats.functions_converted, 1 ≤ p.2) ∧
      (replace_func sql).stats.total_conversions =
        ((replace_func sql).stats.functions_converted.map Prod.snd).sum ∧
      0 ≤ (replace_func sql).stats.errors := by
  intro sql
  have h : StatsOk (runRules sql).stats :=
    foldl_statsOk function_mappings ⟨sql, [], Stats.init⟩ ⟨rfl, by simp [Stats.init]⟩
  rw [replace_func_stats_eq]
  exact ⟨h.2, h.1, Nat.zero_le _⟩

/-- C9, witness: `c9_stats_invariants` at the run on `ifnull(a, b)`, whose
stats record the single entry `("ifnull", 1)`. -/
theorem c9_stats_invariants_witness :
    1 ≤ (("ifnull", 1) : String × Nat).2 ∧
    (replace_func (str "ifnull(a, b)")).stats.total_conversions =
      (((replace_func (str "ifnull(a, b)")).stats.functions_converted).map Prod.snd).sum := by
  exact ⟨(c9_stats_invariants (str "ifnull(a, b)")).1 ("ifnull", 1) (by decide),
         (c9_stats_invariants (str "ifnull(a, b)")).2.1⟩

theorem validate_unbalanced_mem {t : List Char} (h : cCount '(' t ≠ cCount ')' t) :
    "Unbalanced parentheses detected" ∈ _validate_converted_sql t := by
  unfold _validate_converted_sql
  rw [if_pos h]
  simp [List.mem_append]

/-- C7, amended.  The validator checks the final text, not the input: for
every input, whenever the converted text returned by the run has differing
counts of `(` and `)`, the returned warning list contains the
`Unbalanced parentheses detected` warning.  (An unbalanced input does not
guarantee the warning, since rewrites can change the parenthesis counts; see
the counterexample.) -/
theorem c7_unbalanced_amended :
    ∀ sql : List Char,
      cCount '(' (replace_func sql).text ≠ cCount ')' (replace_func sql).text →
      "Unbalanced parentheses detected" ∈ (replace_func sql).warnings := by
  intro sql h
  simp only [replace_func] at h ⊢
  exact List.mem_append.2 (Or.inr (validate_unbalanced_mem h))

/-- C7, witness: `c7_unbalanced_amended` at the input `foo((`, which the
pipeline returns unchanged and unbalanced. -/
theorem c7_unbalanced_amended_witness :
    "Unbalanced parentheses detected" ∈ (replace_func (str "foo((")).warnings := by
  exact c7_unbalanced_amended (str "foo((") (by decide)

theorem bsRunsGo_cons_nobs {c : Char} {T : List Char} {n : Nat} (hc : c ≠ '\\') :
    bsRunsGo (c :: T) n = (if n = 0 then [] else [n]) ++ bsRunsGo T 0 := by
  simp only [bsRunsGo, if_neg hc]
  split <;> simp

theorem bsRunsGo_nobs_append : ∀ (X Y : List Char) (n : Nat),
    X ≠ [] → (∀ c ∈ X, c ≠ '\\') →
    bsRunsGo (X ++ Y) n = (if n = 0 then [] else [n]) ++ bsRunsGo Y 0
  | [], _, _, h, _ => absurd rfl h
  | [c], Y, n, _, hb => by
    have hc : c ≠ '\\' := hb c (by simp)
    rw [List.cons_append, List.nil_append, bsRunsGo_cons_nobs hc]
  | c :: d :: X', Y, n, h, hb => by
    have hc : c ≠ '\\' := hb c (by simp)
    have ih := bsRunsGo_nobs_append (d :: X') Y 0 (by simp)
      (fun x hx => hb x (List.mem_cons_of_mem c hx))
    rw [List.cons_append, bsRunsGo_cons_nobs hc, ih]
    simp

theorem bsNormGo_ok : ∀ (s : List Char) (b : Bool),
    ∀ m ∈ bsRunsGo (bsNormGo s b) (if b then 2 else 0), m = 2 := by
  intro s
  induction s with
  | nil => intro b; cases b <;> simp [bsNormGo, bsRunsGo]
  | cons c s' ih =>
    intro b
    by_cases hc : c = '\\'
    · subst hc
      cases b
      · simp only [bsNormGo, if_pos rfl, Bool.false_eq_true, if_false]
        show ∀ m ∈ bsRunsGo ('\\' :: '\\' :: bsNormGo s' true) 0, m = 2
        simp only [bsRunsGo, if_pos rfl]
        exact ih true
      · simp only [bsNormGo, if_pos rfl, if_true]
        exact ih true
    · cases b
      · simp only [bsNormGo, if_neg hc, Bool.false_eq_true, if_false]
        show ∀ m ∈ bsRunsGo (c :: bsNormGo s' false) 0, m = 2
        simp only [bsRunsGo, if_neg hc, if_pos rfl]
        exact ih false
      · simp only [bsNormGo, if_neg hc, if_true]
        show ∀ m ∈ bsRunsGo (c :: bsNormGo s' false) 2, m = 2
        simp only [bsRunsGo, if_neg hc]
        intro m hm
        rcases List.mem_cons.mp (by simpa using hm) with h | h
        · exact h
        · exact ih false m h

theorem ciDrop_decomp : ∀ {nm s r : List Char}, ciDrop nm s = some r →
    ∃ m, s = m ++ r ∧ m.length = nm.length ∧
      List.Forall₂ (fun l c => lc c = lc l) nm m
  | [], s, r, h => by
    simp only [ciDrop, Option.some.injEq] at h
    exact ⟨[], by simp [h], rfl, .nil⟩
  | n :: ns, [], r, h => by simp [ciDrop] at h
  | n :: ns, c :: cs, r, h => by
    simp only [ciDrop] at h
    split at h
    · next heq =>
        obtain ⟨m, hm, hlen, hfa⟩ := ciDrop_decomp h
        exact ⟨c :: m, by simp [hm], by simp [hlen], .cons heq hfa⟩
    · exact absurd h (by simp)

theorem forall₂_lc_nobs {nm m : List Char}
    (hfa : List.Forall₂ (fun l c => lc c = lc l) nm m)
    (hnm : ∀ l ∈ nm, lc l ≠ '\\') : ∀ c ∈ m, c ≠ '\\' := by
  induction hfa with
  | nil => simp
  | @cons a b as bs hR _ ih =>
    intro c hc
    rcases List.mem_cons.mp hc with h | h
    · subst h
      intro hbs
      subst hbs
      exact hnm a (List.mem_cons_self ..) (by rw [← hR]; rfl)
    · exact ih (fun l hl => hnm l (List.mem_cons_of_mem a hl)) c h

theorem litMatchAt_decomp {p : LitPat} {prev : Option Char} {s rest : List Char}
    (h : litMatchAt p prev s = some rest) :
    ∃ m, s = m ++ rest ∧ m.length = p.lit.length ∧
      List.Forall₂ (fun l c => lc c = lc l) p.lit m := by
  unfold litMatchAt at h
  split at h
  · exact absurd h (by simp)
  · next heq =>
      split at h
      · cases h
        exact ciDrop_decomp heq
      · exact absurd h (by simp)

theorem litSubF_bsOk {p : LitPat} {out : List Char}
    (hlit : p.lit ≠ []) (hlitb : ∀ ch ∈ p.lit, lc ch ≠ '\\')
    (houtn : out ≠ []) (houtb : ∀ ch ∈ out, ch ≠ '\\') :
    ∀ (f : Nat) (prev : Option Char) (s : List Char) (n : Nat),
      (∀ m ∈ bsRunsGo s n, m = 2) →
      ∀ m ∈ bsRunsGo (litSubF p out f prev s) n, m = 2
  | 0, prev, s, n, hs => by simpa [litSubF] using hs
  | f + 1, prev, [], n, hs => by simpa [litSubF] using hs
  | f + 1, prev, c :: s', n, hs => by
    simp only [litSubF]
    split
    · next rest hm =>
        obtain ⟨mt, hmt, hlen, hfa⟩ := litMatchAt_decomp hm
        have hmtne : mt ≠ [] := by
          intro h0
          rw [h0] at hlen
          exact hlit (List.eq_nil_of_length_eq_zero hlen.symm)
        have hmtb : ∀ ch ∈ mt, ch ≠ '\\' := forall₂_lc_nobs hfa hlitb
        rw [hmt, bsRunsGo_nobs_append mt rest n hmtne hmtb] at hs
        rw [bsRunsGo_nobs_append out _ n houtn houtb]
        intro m hm'
        rcases List.mem_append.mp hm' with h | h
        · exact hs m (List.mem_append.mpr (Or.inl h))
        · exact litSubF_bsOk hlit hlitb houtn houtb f _ rest 0
            (fun k hk => hs k (List.mem_append.mpr (Or.inr hk))) m h
    · by_cases hc : c = '\\'
      · subst hc
        simp only [bsRunsGo, if_pos rfl] at hs ⊢
        exact litSubF_bsOk hlit hlitb houtn houtb f _ s' (n + 1) hs
      · simp only [bsRunsGo, if_neg hc] at hs ⊢
        rcases Nat.eq_zero_or_pos n with hn | hn
        · subst hn
          simp only [if_pos rfl] at hs ⊢
          exact litSubF_bsOk hlit hlitb houtn houtb f _ s' 0 hs
        · rw [if_neg (Nat.pos_iff_ne_zero.mp hn)] at hs ⊢
          intro m hm'
          rcases List.mem_cons.mp hm' with h | h
          · exact hs m (h ▸ List.mem_cons_self ..)
          · exact litSubF_bsOk hlit hlitb houtn houtb f _ s' 0
              (fun k hk => hs k (List.mem_cons_of_mem n hk)) m h

theorem foldl_litSub_bsOk : ∀ (l : List (LitPat × List Char)) (s : List Char),
    (∀ pr ∈ l, pr.1.lit ≠ [] ∧ (∀ ch ∈ pr.1.lit, lc ch ≠ '\\') ∧
      pr.2 ≠ [] ∧ (∀ ch ∈ pr.2, ch ≠ '\\')) →
    BsOk s → BsOk (l.foldl (fun t pr => litSub pr.1 pr.2 t) s)
  | [], s, _, hs => hs
  | pr :: l', s, hc, hs => by
    rw [List.foldl_cons]
    refine foldl_litSub_bsOk l' _ (fun q hq => hc q (List.mem_cons_of_mem pr hq)) ?_
    obtain ⟨h1, h2, h3, h4⟩ := hc pr (List.mem_cons_self ..)
    intro m hm
    exact litSubF_bsOk h1 h2 h3 h4 s.length none s 0 hs m hm

/-- C8, amended.  For every input, every maximal backslash run of the text
returned by the conversion has length exactly two: the backslash
normalization step leaves only runs of length two, and the identifier
renames applied after it involve no backslashes and cannot merge runs.  (The
input-side half of the original claim fails: see the counterexample, where a
rewrite drops an input run entirely.) -/
theorem c8_backslash_amended : ∀ sql : List Char, BsOk (replace_func sql).text := by
  intro sql
  simp only [replace_func, _apply_additional_transformations]
  apply foldl_litSub_bsOk function_replacements _ (by decide)
  intro m hm
  exact bsNormGo_ok _ false m hm

theorem ciDrop_construct : ∀ {nm m : List Char},
    List.Forall₂ (fun l c => lc c = lc l) nm m → ∀ t, ciDrop nm (m ++ t) = some t := by
  intro nm m hfa
  induction hfa with
  | nil => intro t; rfl
  | @cons a b as bs hR _ ih =>
    intro t
    simp only [List.cons_append, ciDrop, if_pos hR]
    exact ih t

theorem wsParen_inv {s1 s2 : List Char} (h : wsParen s1 = some s2) :
    ∃ w, s1 = w ++ '(' :: s2 ∧ ∀ c ∈ w, isWs c := by
  unfold wsParen at h
  split at h
  · next heq =>
      cases h
      refine ⟨s1.takeWhile (fun c => isWs c), ?_, fun c hc => List.mem_takeWhile_imp hc⟩
      conv_lhs => rw [← List.takeWhile_append_dropWhile (fun c => isWs c) s1]
      rw [heq]
  · exact absurd h (by simp)

theorem wsParen_construct {w : List Char} (hw : ∀ c ∈ w, isWs c) (t : List Char) :
    wsParen (w ++ '(' :: t) = some t := by
  unfold wsParen
  rw [List.dropWhile_append_of_pos hw, List.dropWhile_cons_of_neg (by simp [isWs])]
  rfl

theorem arg1_inv {s g1 s3 : List Char} (h : arg1 s = some (g1, s3)) :
    s = g1 ++ ',' :: s3 ∧ g1 ≠ [] ∧ ∀ c ∈ g1, c ≠ ',' := by
  unfold arg1 at h
  split at h
  · exact absurd h (by simp)
  · next c g1' r' htk hdp =>
      cases h
      refine ⟨?_, by simp, ?_⟩
      · conv_lhs => rw [← List.takeWhile_append_dropWhile (fun c => c != ',') s]
        rw [htk, hdp]
      · intro x hx
        have := List.mem_takeWhile_imp (htk ▸ hx)
        simpa using this
  · exact absurd h (by simp)

theorem arg1_construct {g1 : List Char} (hne : g1 ≠ []) (hg : ∀ c ∈ g1, c ≠ ',')
    (t : List Char) : arg1 (g1 ++ ',' :: t) = some (g1, t) := by
  have htk : (g1 ++ ',' :: t).takeWhile (fun c => c != ',') = g1 := by
    rw [List.takeWhile_append_of_pos (by intro a ha; simpa using hg a ha),
      List.takeWhile_cons_of_neg (by simp)]
    simp
  have hdp : (g1 ++ ',' :: t).dropWhile (fun c => c != ',') = ',' :: t := by
    rw [List.dropWhile_append_of_pos (by intro a ha; simpa using hg a ha),
      List.dropWhile_cons_of_neg (by simp)]
  unfold arg1
  rw [htk, hdp]
  rcases g1 with _ | ⟨c, g1'⟩
  · exact absurd rfl hne
  · rfl

theorem computeG2_eval {v : List Char} (hv : v ≠ []) (r' : List Char) :
    (match v.dropWhile (fun d => isWs d) with
     | [] =>
       match v.reverse with
       | x :: _ => some ([x], r')
       | [] => none
     | g2 => some (g2, r')) = some (computeG2 v, r') := by
  rcases hdw : v.dropWhile (fun d => isWs d) with _ | ⟨d, g⟩
  · rcases hrev : v.reverse with _ | ⟨x, rev⟩
    · exact absurd (by simpa using congrArg List.reverse hrev) hv
    · simp [computeG2, hdw, hrev]
  · simp [computeG2, hdw]

theorem arg2_inv {s g2 s4 : List Char} (h : arg2 s = some (g2, s4)) :
    ∃ v, s = v ++ ')' :: s4 ∧ v ≠ [] ∧ (∀ c ∈ v, c ≠ ')') ∧ g2 = computeG2 v := by
  unfold arg2 at h
  split at h
  · exact absurd h (by simp)
  · next c run r' htk hdp =>
      rw [computeG2_eval (by simp) r'] at h
      simp only [Option.some.injEq, Prod.mk.injEq] at h
      obtain ⟨hg, hr⟩ := h
      subst hr
      refine ⟨c :: run, ?_, by simp, ?_, hg.symm⟩
      · conv_lhs => rw [← List.takeWhile_append_dropWhile (fun c => c != ')') s]
        rw [htk, hdp]
      · intro x hx
        have := List.mem_takeWhile_imp (htk ▸ hx)
        simpa using this
  · exact absurd h (by simp)

theorem arg2_construct {v : List Char} (hne : v ≠ []) (hv : ∀ c ∈ v, c ≠ ')')
    (t : List Char) : arg2 (v ++ ')' :: t) = some (computeG2 v, t) := by
  have htk : (v ++ ')' :: t).takeWhile (fun c => c != ')') = v := by
    rw [List.takeWhile_append_of_pos (by intro a ha; simpa using hv a ha),
      List.takeWhile_cons_of_neg (by simp)]
    simp
  have hdp : (v ++ ')' :: t).dropWhile (fun c => c != ')') = ')' :: t := by
    rw [List.dropWhile_append_of_pos (by intro a ha; simpa using hv a ha),
      List.dropWhile_cons_of_neg (by simp)]
  unfold arg2
  rw [htk, hdp]
  rcases v with _ | ⟨c, run⟩
  · exact absurd rfl hne
  · exact computeG2_eval (by simp) t

theorem matchTwo_construct {nm m w g1 v : List Char}
    (hm : List.Forall₂ (fun l c => lc c = lc l) nm m)
    (hw : ∀ c ∈ w, isWs c) (hg1 : g1 ≠ []) (hg1' : ∀ c ∈ g1, c ≠ ',')
    (hv : v ≠ []) (hv' : ∀ c ∈ v, c ≠ ')') (t : List Char) :
    matchTwo nm (m ++ (w ++ ('(' :: (g1 ++ (',' :: (v ++ (')' :: t))))))) =
      some ([g1, computeG2 v], t) := by
  unfold matchTwo
  simp only [ciDrop_construct hm, wsParen_construct hw, arg1_construct hg1 hg1',
    arg2_construct hv hv']

theorem matchTwo_inv {nm s : List Char} {gs : List (List Char)} {r : List Char}
    (h : matchTwo nm s = some (gs, r)) :
    ∃ m w g1 v, s = m ++ (w ++ ('(' :: (g1 ++ (',' :: (v ++ (')' :: r)))))) ∧
      List.Forall₂ (fun l c => lc c = lc l) nm m ∧ (∀ c ∈ w, isWs c) ∧
      g1 ≠ [] ∧ (∀ c ∈ g1, c ≠ ',') ∧ v ≠ [] ∧ (∀ c ∈ v, c ≠ ')') ∧
      gs = [g1, computeG2 v] := by
  unfold matchTwo at h
  split at h
  · exact absurd h (by simp)
  · next s1 h1 =>
      split at h
      · exact absurd h (by simp)
      · next s2 h2 =>
          split at h
          · exact absurd h (by simp)
          · next g1 s3 h3 =>
              split at h
              · exact absurd h (by simp)
              · next g2 s4 h4 =>
                  simp only [Option.some.injEq, Prod.mk.injEq] at h
                  obtain ⟨hgs, hr⟩ := h
                  subst hr
                  obtain ⟨m, hm, _, hfa⟩ := ciDrop_decomp h1
                  obtain ⟨w, hw, hws⟩ := wsParen_inv h2
                  obtain ⟨ha1, hg1ne, hg1⟩ := arg1_inv h3
                  obtain ⟨v, hv, hvne, hv', hg2⟩ := arg2_inv h4
                  refine ⟨m, w, g1, v, ?_, hfa, hws, hg1ne, hg1, hvne, hv', ?_⟩
                  · rw [hm, hw, ha1, hv]
                  · rw [← hgs, hg2]

theorem matchTwo_nil {nm : List Char} : matchTwo nm [] = none := by
  unfold matchTwo
  rcases nm with _ | ⟨n, nm'⟩
  · rfl
  · rfl

theorem selfSpan_of_match {nm s : List Char} {gs : List (List Char)} {r : List Char}
    (h : matchTwo nm s = some (gs, r)) :
    ∃ C, s = C ++ r ∧ SelfSpan nm C := by
  obtain ⟨m, w, g1, v, hs, hfa, hws, hg1ne, hg1, hvne, hv', hgs⟩ := matchTwo_inv h
  refine ⟨m ++ (w ++ ('(' :: (g1 ++ (',' :: (v ++ [')']))))), ?_, ⟨[g1, computeG2 v], ?_⟩⟩
  · rw [hs]; simp
  · intro t
    have := matchTwo_construct hfa hws hg1ne hg1 hvne hv' t
    simpa using this

theorem selfSpan_ne_nil {nm C : List Char} (h : SelfSpan nm C) : C ≠ [] := by
  intro h0
  obtain ⟨gs, hgs⟩ := h
  have := hgs []
  rw [h0] at this
  simp only [List.nil_append] at this
  rw [matchTwo_nil] at this
  exact absurd this (by simp)

theorem getAt_append {X Z : List Char} {c : Char} : (X ++ c :: Z)[X.length]? = some c := by
  rw [List.getElem?_append_right (Nat.le_refl _)]
  simp

theorem forall₂_lc_avoid {nm m : List Char}
    (hfa : List.Forall₂ (fun l c => lc c = lc l) nm m)
    {x : Char} (hx : lc x = x) (hnm : ∀ l ∈ nm, lc l ≠ x) : ∀ c ∈ m, c ≠ x := by
  induction hfa with
  | nil => simp
  | @cons a b as bs hR _ ih =>
    intro c hc
    rcases List.mem_cons.mp hc with h | h
    · subst h
      intro hbs
      subst hbs
      exact hnm a (List.mem_cons_self ..) (by rw [← hR, hx])
    · exact ih (fun l hl => hnm l (List.mem_cons_of_mem a hl)) c h

/-- A two-argument match that starts at the head of `A ++ S ++ R`, where `S`
is a self-contained span, cannot consume past the end of `S`: everything
before the match's comma is comma-free and everything between the comma and
the match's closing parenthesis is `)`-free, while `S` ends in `)` with a
comma before that. -/
theorem noSwallow {nm A S R : List Char} {gs : List (List Char)} {r : List Char}
    (hnm : ∀ n ∈ nm, lc n ≠ ',')
    (hS : SelfSpan nm S)
    (h : matchTwo nm (A ++ S ++ R) = some (gs, r)) :
    R.length ≤ r.length := by
  by_contra hcon
  push_neg at hcon
  obtain ⟨m, w, g1, v, hs, hfa, hws, hg1ne, hg1, hvne, hv', _⟩ := matchTwo_inv h
  obtain ⟨gs', hgs'⟩ := hS
  obtain ⟨m', w', g1', v', hs', hfa', hws', hg1ne', hg1'', hvne', hv'', _⟩ :=
    matchTwo_inv (hgs' [])
  rw [List.append_nil] at hs'
  have hT1 : A ++ S ++ R = (m ++ w ++ '(' :: g1) ++ ',' :: (v ++ ')' :: r) := by
    rw [hs]; simp
  have hSx : S = (m' ++ w' ++ '(' :: g1') ++ ',' :: (v' ++ [')']) := by
    rw [hs']; simp
  have hT2 : A ++ S ++ R = ((A ++ (m' ++ w' ++ '(' :: g1')) ++ ',' :: v') ++ ')' :: R := by
    rw [hSx]; simp
  have hT3 : A ++ S ++ R = (A ++ (m' ++ w' ++ '(' :: g1')) ++ ',' :: (v' ++ ')' :: R) := by
    rw [hSx]; simp
  have hP₁comma : ∀ c ∈ m ++ w ++ '(' :: g1, c ≠ ',' := by
    intro c hc
    rcases List.mem_append.mp hc with hc | hc
    · rcases List.mem_append.mp hc with hc | hc
      · exact forall₂_lc_avoid hfa (by decide) hnm c hc
      · intro h0; subst h0; simpa [isWs] using hws ',' hc
    · rcases List.mem_cons.mp hc with hc | hc
      · intro h0; rw [h0] at hc; exact absurd hc (by decide)
      · exact hg1 c hc
  have hqstar : (A ++ S ++ R)[(A ++ (m' ++ w' ++ '(' :: g1')).length]? = some ',' := by
    rw [hT3]; exact getAt_append
  have hpstar : (A ++ S ++ R)[((A ++ (m' ++ w' ++ '(' :: g1')) ++ ',' :: v').length]? = some ')' := by
    rw [hT2]; exact getAt_append
  have hL1 := congrArg List.length hT1
  have hL2 := congrArg List.length hT2
  simp only [List.length_append, List.length_cons] at hL1 hL2
  have e1 : ((A ++ (m' ++ w' ++ '(' :: g1')) ++ ',' :: v').length
      = A.length + m'.length + w'.length + 1 + g1'.length + 1 + v'.length := by
    simp [List.length_append, List.length_cons]
    omega
  have e2 : (m ++ w ++ '(' :: g1).length = m.length + w.length + 1 + g1.length := by
    simp [List.length_append, List.length_cons]
    omega
  have e3 : ((m ++ w ++ '(' :: g1) ++ [',']).length
      = m.length + w.length + 1 + g1.length + 1 := by
    simp [List.length_append, List.length_cons]
    omega
  have e4 : (A ++ (m' ++ w' ++ '(' :: g1')).length
      = A.length + m'.length + w'.length + 1 + g1'.length := by
    simp [List.length_append, List.length_cons]
    omega
  -- the closing parenthesis of `S` lies strictly before the match's own
  -- closing parenthesis, so it falls in the comma-free prefix, in the comma
  -- position, or in the `)`-free group-2 run; only the prefix is possible
  have hplt : ((A ++ (m' ++ w' ++ '(' :: g1')) ++ ',' :: v').length <
      (m ++ w ++ '(' :: g1).length := by
    by_contra h1
    push_neg at h1
    rcases Nat.eq_or_lt_of_le h1 with heq | hlt
    · rw [hT1] at hpstar
      rw [← heq] at hpstar
      rw [getAt_append] at hpstar
      exact absurd hpstar (by decide)
    · rw [e2, e1] at hlt
      rw [hT1] at hpstar
      have harr : (m ++ w ++ '(' :: g1) ++ ',' :: (v ++ ')' :: r) =
          ((m ++ w ++ '(' :: g1) ++ [',']) ++ (v ++ ')' :: r) := by simp
      rw [harr, List.getElem?_append_right (by rw [e3, e1]; omega)] at hpstar
      have hj : ((A ++ (m' ++ w' ++ '(' :: g1')) ++ ',' :: v').length -
          ((m ++ w ++ '(' :: g1) ++ [',']).length < v.length := by
        rw [e3, e1]
        omega
      rw [List.getElem?_append_left hj] at hpstar
      exact absurd (List.getElem?_mem hpstar) (by intro hm2; exact hv' ')' hm2 rfl)
  have hqlt : (A ++ (m' ++ w' ++ '(' :: g1')).length <
      (m ++ w ++ '(' :: g1).length := by
    rw [e4]
    rw [e1, e2] at hplt
    omega
  rw [hT1, List.getElem?_append_left hqlt] at hqstar
  exact absurd (List.getElem?_mem hqstar) (by intro hm2; exact hP₁comma ',' hm2 rfl)

theorem matchAt_two {nm s : List Char} : matchAt nm Shape.two s = matchTwo nm s := rfl

theorem findSplit_decomp {nm : List Char} {sh : Shape} :
    ∀ {s pre : List Char} {gs : List (List Char)} {rest : List Char},
      findSplit nm sh s = some (pre, gs, rest) →
      ∃ T₁, s = pre ++ T₁ ∧ matchAt nm sh T₁ = some (gs, rest)
  | [], _, _, _, h => absurd h (by simp [findSplit])
  | c :: s', pre, gs, rest, h => by
    unfold findSplit at h
    split at h
    · next heq =>
        cases h
        exact ⟨c :: s', rfl, heq⟩
    · split at h
      · exact absurd h (by simp)
      · next pre' gs' rest' hf =>
          cases h
          obtain ⟨T₁, hT, hm⟩ := findSplit_decomp hf
          exact ⟨T₁, by rw [List.cons_append, ← hT], hm⟩

theorem prefix_split {p T A X : List Char} (h : p ++ T = A ++ X)
    (hl : p.length ≤ A.length) : ∃ B, A = p ++ B ∧ T = B ++ X := by
  have hp : A.take p.length = p := by
    have h1 : (p ++ T).take p.length = p := by simp
    have h2 : (A ++ X).take p.length = A.take p.length := by
      rw [List.take_append_eq_append_take, Nat.sub_eq_zero_of_le hl]
      simp
    rw [← h2, ← h, h1]
  have hA : A = p ++ A.drop p.length := by
    conv_lhs => rw [← List.take_append_drop p.length A]
    rw [hp]
  refine ⟨A.drop p.length, hA, ?_⟩
  rw [hA, List.append_assoc] at h
  exact List.append_cancel_left h

/-- If `s` contains a self span, the scan finds a match, and the leftmost
match starts no later than that span. -/
theorem findSplit_span_ex {nm : List Char} :
    ∀ (A : List Char) {S R : List Char}, SelfSpan nm S →
      ∃ pre gs rest, findSplit nm Shape.two (A ++ S ++ R) = some (pre, gs, rest) ∧
        pre.length ≤ A.length
  | [], S, R, hS => by
    have hne : S ≠ [] := selfSpan_ne_nil hS
    obtain ⟨gs', hgs'⟩ := hS
    rcases hSc : S with _ | ⟨c, S'⟩
    · exact absurd hSc hne
    · have hm : matchAt nm Shape.two (c :: (S' ++ R)) = some (gs', R) := by
        rw [matchAt_two]
        have := hgs' R
        rw [hSc] at this
        simpa using this
      refine ⟨[], gs', R, ?_, by simp⟩
      simp only [List.nil_append, hSc, List.cons_append]
      unfold findSplit
      rw [hm]
  | c :: A', S, R, hS => by
    obtain ⟨pre', gs', rest', hf, hlen⟩ := findSplit_span_ex A' hS
    show ∃ pre gs rest, findSplit nm Shape.two (c :: (A' ++ S ++ R)) = some (pre, gs, rest) ∧ _
    rcases hm : matchAt nm Shape.two (c :: (A' ++ S ++ R)) with _ | ⟨gs0, rest0⟩
    · refine ⟨c :: pre', gs', rest', ?_, by simpa using Nat.succ_le_succ hlen⟩
      unfold findSplit
      rw [hm, hf]
    · refine ⟨[], gs0, rest0, ?_, by simp⟩
      unfold findSplit
      rw [hm]

theorem suffix_of_suffix_le {l₁ l₂ T : List Char} (h1 : l₁ <:+ T) (h2 : l₂ <:+ T)
    (hl : l₂.length ≤ l₁.length) : ∃ W, l₁ = W ++ l₂ := by
  obtain ⟨u, hu⟩ := h1
  obtain ⟨v, hv⟩ := h2
  have h : u ++ l₁ = v ++ l₂ := by rw [hu, hv]
  have hul : u.length ≤ v.length := by
    have := congrArg List.length hu
    have := congrArg List.length hv
    simp only [List.length_append] at *
    omega
  obtain ⟨B, _, hT⟩ := prefix_split h hul
  exact ⟨B, hT⟩

theorem hasSpans_prepend {nm W R : List Char} {k : Nat} (h : HasSpans nm R k) :
    HasSpans nm (W ++ R) k := by
  cases h with
  | zero => exact HasSpans.zero _
  | more A S R' k hS hR =>
      have : W ++ (A ++ S ++ R') = (W ++ A) ++ S ++ R' := by simp
      rw [this]
      exact HasSpans.more _ _ _ _ hS hR

/-- Lower bound: a text containing `k` disjoint self spans has at least `k`
non-overlapping matches.  The scan finds a leftmost match no later than the
first span; that match cannot consume past the first span's end
(`noSwallow`), so the remaining `k - 1` spans survive in the unscanned rest. -/
theorem hasSpans_cnt {nm : List Char} (hnm : ∀ n ∈ nm, lc n ≠ ',') :
    ∀ (k : Nat) (T : List Char), HasSpans nm T k → k ≤ pyCount nm Shape.two T
  | 0, T, _ => Nat.zero_le _
  | k + 1, T, h => by
    cases h with
    | more A S R k2 hS hR =>
      obtain ⟨pre, gs, rest, hfs, hlen⟩ := findSplit_span_ex A hS (R := R)
      rw [pyCount_some hfs]
      obtain ⟨T₁, hT₁, hm⟩ := findSplit_decomp hfs
      rw [matchAt_two] at hm
      have hsp : pre ++ T₁ = A ++ (S ++ R) := by rw [← hT₁]; simp
      obtain ⟨A₂, hA₂, hT₁'⟩ := prefix_split hsp hlen
      rw [hT₁'] at hm
      have hmm : matchTwo nm (A₂ ++ S ++ R) = some (gs, rest) := by
        rw [List.append_assoc]; exact hm
      have hRle : R.length ≤ rest.length := noSwallow hnm hS hmm
      have hrestsuf : rest <:+ A₂ ++ S ++ R := by
        obtain ⟨mm, ww, gg1, vv, hdec, _⟩ := matchTwo_inv hmm
        refine ⟨mm ++ ww ++ '(' :: gg1 ++ ',' :: vv ++ [')'], ?_⟩
        rw [hdec]; simp
      have hRsuf : R <:+ A₂ ++ S ++ R := ⟨A₂ ++ S, by simp⟩
      obtain ⟨W, hW⟩ := suffix_of_suffix_le hrestsuf hRsuf hRle
      have hrs : HasSpans nm rest k := hW ▸ hasSpans_prepend hR
      have ih := hasSpans_cnt hnm k rest hrs
      omega

/-- Conversely, the scan's own matches form disjoint self spans. -/
theorem cnt_hasSpans {nm : List Char} (Y : List Char) :
    HasSpans nm Y (pyCount nm Shape.two Y) := by
  rcases hf : findSplit nm Shape.two Y with _ | ⟨pre, gs, rest⟩
  · rw [pyCount_none hf]
    exact HasSpans.zero _
  · rw [pyCount_some hf]
    obtain ⟨T₁, hT₁, hm⟩ := findSplit_decomp hf
    rw [matchAt_two] at hm
    obtain ⟨C, hC, hspan⟩ := selfSpan_of_match hm
    have ih := @cnt_hasSpans nm rest
    have hY : Y = pre ++ C ++ rest := by rw [hT₁, hC]; simp
    have hmore := HasSpans.more pre C rest _ hspan ih
    have hmore2 : HasSpans nm (pre ++ C ++ rest) (1 + pyCount nm Shape.two rest) := by
      simpa [Nat.add_comm] using hmore
    exact hY ▸ hmore2
termination_by Y.length
decreasing_by exact findSplit_len hf

theorem forall₂_lc_refl : ∀ (x : List Char), List.Forall₂ (fun l c => lc c = lc l) x x
  | [] => .nil
  | _ :: xs => .cons rfl (forall₂_lc_refl xs)

/-- Any text of the form `date_add(` ++ `z₁ , z₂` in which `z₁` is a
non-empty comma-free run and `z₂` starts with a non-`)` character and
contains a `)` begins with a self-contained `date_add` match span. -/
theorem dateAdd_span_head {z₁ z₂ : List Char}
    (h1 : z₁ ≠ []) (h2 : ∀ c ∈ z₁, c ≠ ',')
    (h3 : ')' ∈ z₂) (h4 : ∀ c, z₂.head? = some c → c ≠ ')') :
    ∃ C ρ, str "date_add" ++ ('(' :: (z₁ ++ ',' :: z₂)) = C ++ ρ ∧
      SelfSpan (str "date_add") C := by
  have hdpne : z₂.dropWhile (fun c => c != ')') ≠ [] := by
    intro h0
    rw [List.dropWhile_eq_nil_iff] at h0
    simpa using h0 ')' h3
  rcases hdp : z₂.dropWhile (fun c => c != ')') with _ | ⟨d, ρ⟩
  · exact absurd hdp hdpne
  · have hd : d = ')' := by
      have := List.head?_dropWhile_not (fun c => c != ')') z₂
      rw [hdp] at this
      simpa using this
    subst hd
    have hz₂ : z₂ = z₂.takeWhile (fun c => c != ')') ++ ')' :: ρ := by
      conv_lhs => rw [← List.takeWhile_append_dropWhile (fun c => c != ')') z₂]
      rw [hdp]
    have hvne : z₂.takeWhile (fun c => c != ')') ≠ [] := by
      rcases hz : z₂ with _ | ⟨c, z₂'⟩
      · exact absurd (hz ▸ h3) (by simp)
      · have hcne : c ≠ ')' := h4 c (by rw [hz]; rfl)
        rw [List.takeWhile_cons_of_pos (by simpa using hcne)]
        simp
    have hv : ∀ c ∈ z₂.takeWhile (fun c => c != ')'), c ≠ ')' := by
      intro c hc
      simpa using List.mem_takeWhile_imp hc
    refine ⟨str "date_add" ++ ('(' :: (z₁ ++ ',' :: (z₂.takeWhile (fun c => c != ')') ++ [')']))),
      ρ, ?_, ⟨[z₁, computeG2 (z₂.takeWhile (fun c => c != ')'))], ?_⟩⟩
    · conv_lhs => rw [hz₂]
      simp
    · intro t
      have hc := @matchTwo_construct (str "date_add") (str "date_add") [] z₁
        (z₂.takeWhile (fun c => c != ')'))
        (forall₂_lc_refl _) (by simp) h1 h2 hvne hv t
      have harr : str "date_add" ++ ([] ++ ('(' :: (z₁ ++ (',' :: (z₂.takeWhile (fun c => c != ')') ++ (')' :: t)))))) =
          (str "date_add" ++ ('(' :: (z₁ ++ ',' :: (z₂.takeWhile (fun c => c != ')') ++ [')'])))) ++ t := by
        simp
      rw [harr] at hc
      exact hc

theorem pySplitGo_subset : ∀ (s acc tok : List Char), tok ∈ pySplitGo s acc →
    ∀ c ∈ tok, c ∈ s ∨ c ∈ acc
  | [], acc, tok, htok, c, hc => by
    unfold pySplitGo at htok
    split at htok
    · exact absurd htok (by simp)
    · simp only [List.mem_singleton] at htok
      subst htok
      exact Or.inr (List.mem_reverse.mp hc)
  | c₀ :: rest, acc, tok, htok, c, hc => by
    unfold pySplitGo at htok
    split at htok
    · split at htok
      · rcases pySplitGo_subset rest [] tok htok c hc with h | h
        · exact Or.inl (List.mem_cons_of_mem c₀ h)
        · exact absurd h (by simp)
      · rcases List.mem_cons.mp htok with h | h
        · subst h
          exact Or.inr (List.mem_reverse.mp hc)
        · rcases pySplitGo_subset rest [] tok h c hc with h' | h'
          · exact Or.inl (List.mem_cons_of_mem c₀ h')
          · exact absurd h' (by simp)
    · rcases pySplitGo_subset rest (c₀ :: acc) tok htok c hc with h | h
      · exact Or.inl (List.mem_cons_of_mem c₀ h)
      · rcases List.mem_cons.mp h with h' | h'
        · exact Or.inl (h' ▸ List.mem_cons_self ..)
        · exact Or.inr h'

theorem pySplit_subset {s tok : List Char} (htok : tok ∈ pySplit s) :
    ∀ c ∈ tok, c ∈ s := by
  intro c hc
  rcases pySplitGo_subset s [] tok htok c hc with h | h
  · exact h
  · exact absurd h (by simp)

theorem computeG2_subset {v : List Char} : ∀ c ∈ computeG2 v, c ∈ v := by
  intro c hc
  unfold computeG2 at hc
  split at hc
  · exact List.mem_reverse.mp ((List.take_prefix 1 v.reverse).subset hc)
  · exact (List.dropWhile_suffix _).subset hc

theorem split_first_comma {u : List Char} (h : ',' ∈ u) :
    ∃ tw u₂, u = tw ++ ',' :: u₂ ∧ (∀ c ∈ tw, c ≠ ',') ∧ (∀ c ∈ u₂, c ∈ u) := by
  have hdpne : u.dropWhile (fun c => c != ',') ≠ [] := by
    intro h0
    rw [List.dropWhile_eq_nil_iff] at h0
    simpa using h0 ',' h
  rcases hdp : u.dropWhile (fun c => c != ',') with _ | ⟨d, u₂⟩
  · exact absurd hdp hdpne
  · have hd : d = ',' := by
      have := List.head?_dropWhile_not (fun c => c != ',') u
      rw [hdp] at this
      simpa using this
    subst hd
    refine ⟨u.takeWhile (fun c => c != ','), u₂, ?_, ?_, ?_⟩
    · conv_lhs => rw [← List.takeWhile_append_dropWhile (fun c => c != ',') u]
      rw [hdp]
    · intro c hc
      simpa using List.mem_takeWhile_imp hc
    · intro c hc
      refine (List.dropWhile_suffix (l := u) (fun c => c != ',')).subset ?_
      rw [hdp]
      exact List.mem_cons_of_mem _ hc

/-- Whatever `_replace_date_add` successfully produces starts with a
self-contained `date_add` match span: the rewrite output re-creates a
matching occurrence of the rule's own pattern. -/
theorem dateAdd_out_span {g1 g2 O : List Char}
    (hg2 : ∀ c ∈ g2, c ≠ ')')
    (hO : _replace_date_add g1 g2 = .ok O) :
    ∃ C ρ, O = C ++ ρ ∧ SelfSpan (str "date_add") C := by
  unfold _replace_date_add at hO
  split at hO
  · -- single-token branch: date_add('day', g2, CAST(g1 AS TIMESTAMP))
    simp only [Except.ok.injEq] at hO
    subst hO
    obtain ⟨C, ρ, hCρ, hspan⟩ := @dateAdd_span_head (str "'day'")
      (str " " ++ g2 ++ str ", CAST(" ++ g1 ++ str " AS TIMESTAMP))")
      (by decide) (by decide)
      (List.mem_append.mpr (Or.inr (by decide)))
      (by
        intro c hc
        have hh : (str " " ++ g2 ++ str ", CAST(" ++ g1 ++ str " AS TIMESTAMP))").head? =
            some ' ' := rfl
        rw [hh] at hc
        cases hc
        decide)
    exact ⟨C, ρ, Eq.trans rfl hCρ, hspan⟩
  · exact absurd hO (by simp)
  · exact absurd hO (by simp)
  · next t0 vp u3 lrest hsp =>
      simp only [Except.ok.injEq] at hO
      subst hO
      have hu3mem : u3 ∈ pySplit g2 := by rw [hsp]; simp
      have hu3 : ∀ c ∈ u3, c ≠ ')' := fun c hc => hg2 c (pySplit_subset hu3mem c hc)
      have huch : ∀ c ∈ (if u3.getLast? = some 's' then u3.dropLast else u3), c ≠ ')' := by
        intro c hc
        split at hc
        · exact hu3 c ((List.dropLast_sublist (l := u3)).subset hc)
        · exact hu3 c hc
      generalize hgen : (if u3.getLast? = some 's' then u3.dropLast else u3) = u at huch ⊢
      by_cases hcomma : ',' ∈ u
      · obtain ⟨tw, u₂, hu', htw, hu₂sub⟩ := split_first_comma hcomma
        obtain ⟨C, ρ, hCρ, hspan⟩ := @dateAdd_span_head
          ('\'' :: tw)
          (u₂ ++ str "', " ++ vp ++ str ", " ++ g1 ++ str ")")
          (by simp)
          (by
            intro c hc
            rcases List.mem_cons.mp hc with h | h
            · subst h; decide
            · exact htw c h)
          (List.mem_append.mpr (Or.inr (by decide)))
          (by
            intro c hc
            cases u₂ with
            | nil =>
              have hq : some '\'' = some c := hc
              cases hq
              decide
            | cons e u₂2 =>
              have hq : some e = some c := hc
              cases hq
              exact huch c (hu₂sub c (List.mem_cons_self ..)))
        refine ⟨C, ρ, Eq.trans ?_ hCρ, hspan⟩
        calc str "date_add('" ++ u ++ str "', " ++ vp ++ str ", " ++ g1 ++ str ")"
            = str "date_add" ++ ('(' :: ('\'' :: (u ++ str "', " ++ vp ++ str ", " ++
                g1 ++ str ")"))) := rfl
          _ = str "date_add" ++ ('(' :: (('\'' :: tw) ++ ',' :: (u₂ ++ str "', " ++ vp ++
                str ", " ++ g1 ++ str ")"))) := by
              rw [hu']
              simp [List.append_assoc]
      · obtain ⟨C, ρ, hCρ, hspan⟩ := @dateAdd_span_head
          ('\'' :: (u ++ ['\'']))
          (str " " ++ vp ++ str ", " ++ g1 ++ str ")")
          (by simp)
          (by
            intro c hc
            rcases List.mem_cons.mp hc with h | h
            · subst h; decide
            · rcases List.mem_append.mp h with h' | h'
              · intro h0
                subst h0
                exact hcomma h'
              · simp only [List.mem_singleton] at h'
                subst h'
                decide)
          (List.mem_append.mpr (Or.inr (by decide)))
          (by
            intro c hc
            have hh : (str " " ++ vp ++ str ", " ++ g1 ++ str ")").head? = some ' ' := rfl
            rw [hh] at hc
            cases hc
            decide)
        refine ⟨C, ρ, Eq.trans ?_ hCρ, hspan⟩
        calc str "date_add('" ++ u ++ str "', " ++ vp ++ str ", " ++ g1 ++ str ")"
            = str "date_add" ++ ('(' :: ('\'' :: (u ++ str "', " ++ vp ++ str ", " ++
                g1 ++ str ")"))) := rfl
          _ = str "date_add" ++ ('(' :: (('\'' :: (u ++ ['\''])) ++ ',' :: (str " " ++ vp ++
                str ", " ++ g1 ++ str ")"))) := by
              rw [show (str "', " : List Char) = '\'' :: ',' :: str " " from rfl]
              simp [List.append_assoc]

/-- Substituting the `date_add` rule never decreases the number of matches:
every successful replacement output starts with a fresh self-contained match
span, and by `hasSpans_cnt` all those spans are counted again afterwards. -/
theorem dateAdd_sub_count (s : List Char) :
    ∀ {t : List Char},
      pySub (str "date_add") Shape.two (RKind.two _replace_date_add).apply s = .ok t →
      pyCount (str "date_add") Shape.two s ≤ pyCount (str "date_add") Shape.two t := by
  intro t h
  rcases hf : findSplit (str "date_add") Shape.two s with _ | ⟨pre, gs, rest⟩
  · rw [pySub_none hf] at h
    cases h
    exact Nat.le_refl _
  · rw [pySub_some hf] at h
    rcases hrep : (RKind.two _replace_date_add).apply gs with e | O
    · rw [hrep] at h
      have hq : (Except.error e : Except String (List Char)) = .ok t := h
      exact absurd hq (by simp)
    · rw [hrep] at h
      rcases hsub : pySub (str "date_add") Shape.two (RKind.two _replace_date_add).apply rest
        with e | tr
      · rw [hsub] at h
        have hq : (Except.error e : Except String (List Char)) = .ok t := h
        exact absurd hq (by simp)
      · rw [hsub] at h
        have hq : Except.ok (pre ++ O ++ tr) = Except.ok t := h
        have ht : t = pre ++ O ++ tr := by cases hq; rfl
        subst ht
        have ih := dateAdd_sub_count rest hsub
        obtain ⟨T₁, hT₁, hm⟩ := findSplit_decomp hf
        rw [matchAt_two] at hm
        obtain ⟨mm, ww, gg1, vv, hdec, hfa, hws, hg1ne, hg1c, hvne, hvpar, hgs⟩ :=
          matchTwo_inv hm
        rw [hgs] at hrep
        have hrep' : _replace_date_add gg1 (computeG2 vv) = .ok O := hrep
        have hg2' : ∀ c ∈ computeG2 vv, c ≠ ')' :=
          fun c hc => hvpar c (computeG2_subset c hc)
        obtain ⟨C, ρ, hOC, hspan⟩ := dateAdd_out_span hg2' hrep'
        rw [pyCount_some hf]
        have h1 : HasSpans (str "date_add") (ρ ++ tr)
            (pyCount (str "date_add") Shape.two tr) :=
          hasSpans_prepend (cnt_hasSpans tr)
        have h2 := HasSpans.more pre C (ρ ++ tr) _ hspan h1
        have he : pre ++ C ++ (ρ ++ tr) = pre ++ O ++ tr := by rw [hOC]; simp
        have hsp := he ▸ h2
        have hk := hasSpans_cnt (by decide) _ _ hsp
        omega
termination_by s.length
decreasing_by exact findSplit_len hf

/-- The `date_add` rule records nothing: the after-count is never smaller
than the before-count, and on failure the statistics are not credited. -/
theorem dateAdd_rule_no_record (st : EngSt) :
    (applyRule st ⟨"date_add", .two _replace_date_add⟩).stats.functions_converted =
      st.stats.functions_converted := by
  simp only [applyRule]
  split
  · rfl
  · next t hok =>
      have hok' : pySub (str "date_add") Shape.two (RKind.two _replace_date_add).apply
          st.text = .ok t := hok
      have hle : pyCount ({ name := "date_add", kind := RKind.two _replace_date_add } :
            Rule).pat (RKind.two _replace_date_add).shape st.text ≤
          pyCount ({ name := "date_add", kind := RKind.two _replace_date_add } :
            Rule).pat (RKind.two _replace_date_add).shape t :=
        dateAdd_sub_count st.text hok'
      rw [if_neg (by omega)]

/-- Appending one entry with a different key preserves a failed lookup. -/
theorem lookup_append_none (k n : String) (v : Nat) :
    ∀ l : List (String × Nat), List.lookup k l = none → (k == n) = false →
      List.lookup k (l ++ [(n, v)]) = none := by
  intro l
  induction l with
  | nil =>
      intro _ hn
      simp [List.lookup, hn]
  | cons p l ih =>
      intro h hn
      obtain ⟨a, b⟩ := p
      simp only [List.cons_append, List.lookup] at h ⊢
      cases hka : (k == a) <;> simp only [hka] at h ⊢
      · exact ih h hn
      · exact Option.noConfusion h

/-- A single engine step never introduces a `date_add` entry: other rules append
entries under their own names, and the `date_add` rule records nothing. -/
theorem applyRule_lookup_none (st : EngSt) (r : Rule)
    (hr : r.name ≠ "date_add" ∨ r = ⟨"date_add", .two _replace_date_add⟩)
    (h : List.lookup "date_add" st.stats.functions_converted = none) :
    List.lookup "date_add" (applyRule st r).stats.functions_converted = none := by
  rcases hr with hn | rfl
  · simp only [applyRule]
    split
    · exact h
    · split
      · exact lookup_append_none _ _ _ _ h (beq_eq_false_iff_ne.mpr (Ne.symm hn))
      · exact h
  · rw [dateAdd_rule_no_record]
    exact h

/-- Folding the engine over rules that are either differently named or the
`date_add` rule itself preserves the absence of a `date_add` entry. -/
theorem foldl_lookup_none :
    ∀ (rs : List Rule) (st : EngSt),
      (∀ r ∈ rs, r.name ≠ "date_add" ∨ r = ⟨"date_add", .two _replace_date_add⟩) →
      List.lookup "date_add" st.stats.functions_converted = none →
      List.lookup "date_add" (rs.foldl applyRule st).stats.functions_converted = none := by
  intro rs
  induction rs with
  | nil =>
      intro st _ h
      exact h
  | cons r rs ih =>
      intro st hside h
      rw [List.foldl_cons]
      exact ih _ (fun x hx => hside x (List.mem_cons_of_mem r hx))
        (applyRule_lookup_none st r (hside r (List.mem_cons_self r rs)) h)

/-- Every rule of the table is either not named `date_add` or is exactly the
`date_add` rule built from `_replace_date_add`. -/
theorem fm_side : ∀ r ∈ function_mappings,
    r.name ≠ "date_add" ∨ r = ⟨"date_add", .two _replace_date_add⟩ := by
  intro r hr
  simp only [function_mappings, List.mem_cons, List.not_mem_nil, or_false] at hr
  rcases hr with rfl|rfl|rfl|rfl|rfl|rfl|rfl|rfl|rfl|rfl|rfl|rfl|rfl|rfl|rfl|rfl|rfl|rfl|rfl|rfl|rfl|rfl|rfl
  all_goals first
    | (left ; decide)
    | (right ; rfl)

/-- C2.  For every input string the `date_add` rule is never recorded in
`functions_converted` (hence, by the C9 sum invariant, it contributes zero to
`total_conversions`): its computed replacement starts with a fresh
`date_add(...)` span that re-matches the rule's own pattern, so the engine's
before/after occurrence-count subtraction never goes down.  This holds even
when the rewrite really fired, as the concrete run on `date_add(a, 3)`
witnesses: the text is rewritten yet no `date_add` entry appears. -/
theorem c2_date_add_never_counted :
    (∀ sql : List Char,
        List.lookup "date_add" (replace_func sql).stats.functions_converted = none) ∧
    (replace_func (str "date_add(a, 3)")).text =
      str "date_add('day', 3, CAST(a AS TIMESTAMP))" := by
  constructor
  · intro sql
    rw [replace_func_stats_eq]
    simp only [runRules]
    exact foldl_lookup_none function_mappings ⟨sql, [], Stats.init⟩ fm_side rfl
  · decide
